import Mathlib

/-!
Verification of the resource-index and dependency-resolver core of
`rospkg` (file `src/rospkg/rospack.py` of the plusone-robotics fork).

The development shallowly embeds the Python code:

* `listByPath` embeds the path scanner `list_by_path` over a model of a
  directory tree (`FSTree`);
* `getManifest`, `getDepends`, `getDependsOn`, `getRosdeps` and
  `getLicenses` embed the methods of `ManifestManager` / `RosPack`, with
  the mutable instance caches made explicit in a state record (`MMState`)
  that every operation threads;
* `getCmakeVersion` and `getStackVersionByDir` embed the stack-version
  fallback helpers `_get_cmake_version` and `get_stack_version_by_dir`.

Recursive dependency resolution is embedded with an explicit fuel
parameter; a result of `none` means the given fuel was insufficient, so
`= some _` statements express that the computation terminates.

Python builds the transitive dependency set in a `set` object and returns
`list(s)` whose element order is unspecified; the embedding models every
such collection by its underlying `Finset String`, which carries exactly
the membership and emptiness information the code and the specification
use.
-/

namespace Rospkg

/-- Modelled from the spec: the marker filenames (constants
`MANIFEST_FILE`, `PACKAGE_FILE`, `STACK_FILE` of `rospkg/common.py`, which
is not under `src/`); the spec fixes them as the external filesystem
contract for legacy package manifests, catkin package manifests and stack
manifests. -/
def MANIFEST_FILE : String := "manifest.xml"

/-- Modelled from the spec: see `MANIFEST_FILE`. -/
def PACKAGE_FILE : String := "package.xml"

/-- Modelled from the spec: see `MANIFEST_FILE`. -/
def STACK_FILE : String := "stack.xml"

/-- Modelled from the spec: a parsed manifest object (produced by the
external manifest parser, `rospkg/manifest.py`, which is not under
`src/`).  `rospack.py` consumes the fields `depends` (the direct
dependency names), `rosdeps` (system dependency names), `license` and
`licenses` (license string(s)).  Dependency entries are used only through
their `.name`, so `depends` directly stores the names. -/
structure Manifest where
  depends : List String
  rosdeps : List String
  license : String
  licenses : List String
deriving DecidableEq, Repr

/-- Modelled from the spec: the `ResourceNotFound` error
(`rospkg/common.py`, not under `src/`).  Per the spec's error-handling
design it carries the search paths consulted and, for dependency
resolution, the best-effort partial closure (`deps_sofar`, what the
method `get_depends()` of the error returns) plus the set of names that
could not be resolved (`deps_unavailable`).  Both sets default to empty
when the error is raised by `get_path`. -/
structure RNF where
  ros_paths : List String
  deps_sofar : Finset String
  deps_unavailable : Finset String
deriving DecidableEq

/-- A dependency- or rosdep-cache entry.  Python stores a mutable `set`
placeholder while a name's own closure is being computed (`pending`) and
replaces it by `list(s)` when the computation finishes (`done`).  Both
are read back identically (membership / emptiness), so `contents` is the
only accessor. -/
inductive CEntry where
  | pending (s : Finset String)
  | done (s : Finset String)
deriving DecidableEq

def CEntry.contents : CEntry → Finset String
  | .pending s => s
  | .done s => s

/-- Association-list update: replace the first binding of `k`, or append
a new binding (a Python `dict` assignment `d[k] = v`). -/
def aset {β : Type} : List (String × β) → String → β → List (String × β)
  | [], k, v => [(k, v)]
  | (k', v') :: rest, k, v =>
    if k' = k then (k, v) :: rest else (k', v') :: aset rest k v

/-- Association-list deletion of the binding of `k` (Python `del d[k]`;
keys are unique, so deleting the first binding suffices). -/
def aerase {β : Type} : List (String × β) → String → List (String × β)
  | [], _ => []
  | (k', v') :: rest, k =>
    if k' = k then rest else (k', v') :: aerase rest k

/-- Association-list lookup (a Python `d[k]` / `k in d` pair). -/
def aget {β : Type} : List (String × β) → String → Option β
  | [], _ => none
  | (k', v') :: rest, k => if k' = k then some v' else aget rest k

/-- The fixed configuration of a `ManifestManager` instance: its ordered
search-path list and the resource world it indexes.  `env` models the
composition of the (already built) location cache with the external
manifest parser: `aget env name` is the parsed manifest of `name` when
`name` is indexed, `none` when `get_path`/`parse_manifest_file` would
raise `ResourceNotFound`.  `list()` returns the location-cache keys, i.e.
`env.map Prod.fst`. -/
structure MM where
  ros_paths : List String
  env : List (String × Manifest)

/-- The mutable caches of a `ManifestManager` instance
(`self._manifests`, `self._depends_cache`, `self._rosdeps_cache`),
threaded explicitly through every operation.  Insertion order of the
manifest cache is kept because `get_licenses` iterates over it. -/
structure MMState where
  manifests : List (String × Manifest)
  depends_cache : List (String × CEntry)
  rosdeps_cache : List (String × CEntry)
deriving DecidableEq

/-- A fresh instance state: all caches empty. -/
def st0 : MMState := ⟨[], [], []⟩

instance exceptDecEq {ε α : Type} [DecidableEq ε] [DecidableEq α] :
    DecidableEq (Except ε α)
  | .ok x, .ok y =>
    if h : x = y then .isTrue (by rw [h])
    else .isFalse (fun hh => h (by injection hh))
  | .ok _, .error _ => .isFalse (fun hh => by injection hh)
  | .error _, .ok _ => .isFalse (fun hh => by injection hh)
  | .error x, .error y =>
    if h : x = y then .isTrue (by rw [h])
    else .isFalse (fun hh => h (by injection hh))

/-- `ManifestManager.get_manifest` / `_load_manifest`: return the cached
manifest, else resolve via the index (`env`), cache and return it, or
raise `ResourceNotFound`.  (A parse failure of an indexed manifest is not
modelled: manifests in `env` are already parsed.) -/
def getManifest (mm : MM) (name : String) (st : MMState) :
    Except RNF Manifest × MMState :=
  match aget st.manifests name with
  | some m => (.ok m, st)
  | none =>
    match aget mm.env name with
    | some m => (.ok m, ⟨st.manifests ++ [(name, m)], st.depends_cache, st.rosdeps_cache⟩)
    | none => (.error ⟨mm.ros_paths, ∅, ∅⟩, st)

/-- Helper on states: replace the depends-cache. -/
def MMState.withDep (st : MMState) (dc : List (String × CEntry)) : MMState :=
  ⟨st.manifests, dc, st.rosdeps_cache⟩

/-- Helper on states: replace the rosdeps-cache. -/
def MMState.withRos (st : MMState) (rc : List (String × CEntry)) : MMState :=
  ⟨st.manifests, st.depends_cache, rc⟩

/-- The in-place mutation `s.update(deps)` of the placeholder set `s`
that `get_depends` registered in `self._depends_cache[name]`: the cache
entry for `name` is the very object `s`, so the union is visible through
the cache to any recursive call that hits `name` while it is being
computed.  (During a frame of `name` the entry is always a `pending`
set; the other branches are unreachable and leave the state unchanged.) -/
def cacheUnion (st : MMState) (name : String) (deps : Finset String) : MMState :=
  match aget st.depends_cache name with
  | some (.pending s) => st.withDep (aset st.depends_cache name (.pending (s ∪ deps)))
  | _ => st

/-- The `for p in names` loop of `ManifestManager.get_depends`
(implicit case): each direct dependency `p` is resolved recursively via
`recur`; a `ResourceNotFound` from `p` is caught, its partial closure
`e.get_depends()` is merged like a success and its `deps_unavailable` is
accumulated.  `sAcc` is the local alias of the placeholder set `s`
(kept in lockstep with the cache entry by `cacheUnion`); the
accumulated unavailable set and the threaded state are returned. -/
def depLoop (recur : String → MMState → Option (Except RNF (Finset String) × MMState))
    (name : String) :
    List String → Finset String → Finset String → MMState →
    Option (Finset String × Finset String × MMState)
  | [], sAcc, unavail, st => some (sAcc, unavail, st)
  | p :: rest, sAcc, unavail, st =>
    match recur p st with
    | none => none
    | some (.ok deps, st') =>
      depLoop recur name rest (sAcc ∪ deps) unavail (cacheUnion st' name deps)
    | some (.error e, st') =>
      depLoop recur name rest (sAcc ∪ e.deps_sofar) (unavail ∪ e.deps_unavailable)
        (cacheUnion st' name e.deps_sofar)

/-- `ManifestManager.get_depends(name, implicit)`.

* `implicit = false`: the direct dependency names from the manifest.
* `implicit = true`: cached value if present; otherwise pre-register an
  empty placeholder under `name`, fetch the direct names (on
  `ResourceNotFound`: delete the placeholder, add `name` to the error's
  `deps_unavailable` and re-raise), run `depLoop`, union in the direct
  names themselves, store the result in the cache, and raise
  `ResourceNotFound` carrying the partial closure when some dependency
  was unavailable or the final set is empty (`0 < len(depends_unavailable)
  or 0 == len(s)`), else return it.

`fuel` bounds the recursion depth; `none` means the fuel ran out. -/
def getDepends (mm : MM) :
    Nat → String → Bool → MMState → Option (Except RNF (Finset String) × MMState)
  | 0, _, _, _ => none
  | Nat.succ fuel, name, implicit, st =>
    match implicit with
    | false =>
      match getManifest mm name st with
      | (.ok m, st') => some (.ok m.depends.toFinset, st')
      | (.error e, st') => some (.error e, st')
    | true =>
      match aget st.depends_cache name with
      | some entry => some (.ok entry.contents, st)
      | none =>
        let stP := st.withDep (aset st.depends_cache name (.pending ∅))
        match getManifest mm name stP with
        | (.error e, st1) =>
          some (.error ⟨e.ros_paths, e.deps_sofar, insert name e.deps_unavailable⟩,
            st1.withDep (aerase st1.depends_cache name))
        | (.ok m, st1) =>
          match depLoop (fun p s => getDepends mm fuel p implicit s) name
              m.depends ∅ ∅ st1 with
          | none => none
          | some (sAcc, unavail, st2) =>
            let s := sAcc ∪ m.depends.toFinset
            let st3 := st2.withDep (aset st2.depends_cache name (.done s))
            if unavail ≠ ∅ ∨ s = ∅ then
              some (.error ⟨mm.ros_paths, s, unavail⟩, st3)
            else
              some (.ok s, st3)

/-- The `for r in self.list()` loop of `ManifestManager.get_depends_on`:
every known resource except `name` itself is examined; `ResourceNotFound`
(and invalid manifests, not modelled) are swallowed per candidate.  With
`implicit` the forward resolver is reused and `name in depends` checked;
without it only the direct names of `r`'s manifest are checked. -/
def dependsOnLoop (mm : MM) (fuel : Nat) (name : String) (implicit : Bool) :
    List String → List String → MMState → Option (List String × MMState)
  | [], acc, st => some (acc, st)
  | r :: rest, acc, st =>
    if r = name then dependsOnLoop mm fuel name implicit rest acc st
    else
      match implicit with
      | true =>
        match getDepends mm fuel r true st with
        | none => none
        | some (.ok deps, st') =>
          dependsOnLoop mm fuel name implicit rest
            (if name ∈ deps then acc ++ [r] else acc) st'
        | some (.error _, st') => dependsOnLoop mm fuel name implicit rest acc st'
      | false =>
        match getManifest mm r st with
        | (.ok m, st') =>
          dependsOnLoop mm fuel name implicit rest
            (if name ∈ m.depends then acc ++ [r] else acc) st'
        | (.error _, st') => dependsOnLoop mm fuel name implicit rest acc st'

/-- `ManifestManager.get_depends_on(name, implicit)`: reverse lookup by
scanning every resource known to `list()` (the location-cache keys). -/
def getDependsOn (mm : MM) (fuel : Nat) (name : String) (implicit : Bool)
    (st : MMState) : Option (List String × MMState) :=
  dependsOnLoop mm fuel name implicit (mm.env.map Prod.fst) [] st

/-! ### A computable string order (Python compares strings by code
points), used to fix the otherwise unspecified iteration order of
Python sets and for `sorted`/`list.sort()`. -/

/-- Lexicographic comparison of char lists by code point. -/
def charListLe : List Char → List Char → Bool
  | [], _ => true
  | _ :: _, [] => false
  | c :: cs, d :: ds =>
    if c.toNat < d.toNat then true
    else if d.toNat < c.toNat then false
    else charListLe cs ds

theorem charListLe_total : ∀ l1 l2 : List Char,
    charListLe l1 l2 = true ∨ charListLe l2 l1 = true := by
  intro l1
  induction l1 with
  | nil => intro l2; left; simp [charListLe]
  | cons c cs ih =>
    intro l2
    cases l2 with
    | nil => right; simp [charListLe]
    | cons d ds =>
      by_cases h1 : c.toNat < d.toNat
      · left; simp [charListLe, h1]
      · by_cases h2 : d.toNat < c.toNat
        · right; simp [charListLe, h2]
        · rcases ih ds with h | h
          · left; simp [charListLe, h1, h2, h]
          · right; simp [charListLe, h1, h2, h]

theorem charListLe_trans : ∀ l1 l2 l3 : List Char,
    charListLe l1 l2 = true → charListLe l2 l3 = true →
    charListLe l1 l3 = true := by
  intro l1
  induction l1 with
  | nil => intro l2 l3 _ _; simp [charListLe]
  | cons c cs ih =>
    intro l2 l3 h12 h23
    cases l2 with
    | nil => simp [charListLe] at h12
    | cons d ds =>
      cases l3 with
      | nil => simp [charListLe] at h23
      | cons e es =>
        by_cases hcd : c.toNat < d.toNat
        · by_cases hde : d.toNat < e.toNat
          · have hce : c.toNat < e.toNat := Nat.lt_trans hcd hde
            simp [charListLe, hce]
          · by_cases hed : e.toNat < d.toNat
            · simp [charListLe, hde, hed] at h23
            · have hce : c.toNat < e.toNat := by omega
              simp [charListLe, hce]
        · by_cases hdc : d.toNat < c.toNat
          · simp [charListLe, hcd, hdc] at h12
          · by_cases hde : d.toNat < e.toNat
            · have hce : c.toNat < e.toNat := by omega
              simp [charListLe, hce]
            · by_cases hed : e.toNat < d.toNat
              · simp [charListLe, hde, hed] at h23
              · have hce : ¬ c.toNat < e.toNat := by omega
                have hec : ¬ e.toNat < c.toNat := by omega
                simp [charListLe, hcd, hdc] at h12
                simp [charListLe, hde, hed] at h23
                simp [charListLe, hce, hec]
                exact ih ds es h12 h23

theorem charListLe_antisymm : ∀ l1 l2 : List Char,
    charListLe l1 l2 = true → charListLe l2 l1 = true → l1 = l2 := by
  intro l1
  induction l1 with
  | nil =>
    intro l2 _ h21
    cases l2 with
    | nil => rfl
    | cons d ds => simp [charListLe] at h21
  | cons c cs ih =>
    intro l2 h12 h21
    cases l2 with
    | nil => simp [charListLe] at h12
    | cons d ds =>
      by_cases hcd : c.toNat < d.toNat
      · have hdc : ¬ d.toNat < c.toNat := by omega
        simp [charListLe, hdc, hcd] at h21
      · by_cases hdc : d.toNat < c.toNat
        · simp [charListLe, hcd, hdc] at h12
        · have hcde : c = d := by
            have hn : c.toNat = d.toNat := by omega
            have := congrArg Char.ofNat hn
            rwa [Char.ofNat_toNat, Char.ofNat_toNat] at this
          simp [charListLe, hcd, hdc] at h12 h21
          rw [hcde, ih ds h12 h21]

/-- The Python string order, as a relation. -/
def strLe (a b : String) : Prop := charListLe a.data b.data = true

instance : DecidableRel strLe := fun a b =>
  inferInstanceAs (Decidable (charListLe a.data b.data = true))

instance : IsTotal String strLe := ⟨fun a b => charListLe_total a.data b.data⟩

instance : IsTrans String strLe :=
  ⟨fun a b c h1 h2 => charListLe_trans a.data b.data c.data h1 h2⟩

instance : IsAntisymm String strLe := by
  refine ⟨fun a b h1 h2 => ?_⟩
  have hd := charListLe_antisymm a.data b.data h1 h2
  cases a with
  | mk la =>
    cases b with
    | mk lb => simp only at hd; rw [hd]

/-- A canonical (sorted) linearization of a finite set of strings,
modelling Python's unspecified set-iteration order by a fixed one. -/
def finsetList (s : Finset String) : List String :=
  Quotient.lift (fun l => List.insertionSort strLe l)
    (fun l1 l2 hp =>
      List.eq_of_perm_of_sorted
        ((List.perm_insertionSort strLe l1).trans
          (List.Perm.trans hp (List.perm_insertionSort strLe l2).symm))
        (List.sorted_insertionSort strLe l1)
        (List.sorted_insertionSort strLe l2))
    s.val

/-- Python `str.startswith`. -/
def pyStartsWith (s pre : String) : Bool := List.isPrefixOf pre.data s.data

/-- Split a char list at every character satisfying `p`, keeping empty
pieces (the semantics of `re.split` on a character class and of
`str.split` with a one-character separator). -/
def splitCharAux (p : Char → Bool) : List Char → List Char → List (List Char)
  | [], acc => [acc.reverse]
  | c :: rest, acc =>
    if p c then acc.reverse :: splitCharAux p rest []
    else splitCharAux p rest (c :: acc)

/-- Split a string at every character satisfying `p`. -/
def pySplit (p : Char → Bool) (s : String) : List String :=
  (splitCharAux p s.data []).map (fun l => ⟨l⟩)

/-- `RosPack.get_rosdeps(package, implicit=False)`: the system-dependency
names declared by the package's own manifest. -/
def getRosdepsDirect (mm : MM) (pkg : String) (st : MMState) :
    Except RNF (Finset String) × MMState :=
  match getManifest mm pkg st with
  | (.ok m, st') => (.ok m.rosdeps.toFinset, st')
  | (.error e, st') => (.error e, st')

/-- The `for p in packages` loop of `RosPack._implicit_rosdeps`: union in
each depended package's direct rosdeps; a `ResourceNotFound` is only
printed and the package skipped. -/
def rosdepLoop (mm : MM) : List String → Finset String → MMState →
    Finset String × MMState
  | [], s, st => (s, st)
  | p :: rest, s, st =>
    match getRosdepsDirect mm p st with
    | (.ok rd, st') => rosdepLoop mm rest (s ∪ rd) st'
    | (.error _, st') => rosdepLoop mm rest s st'

/-- `RosPack._implicit_rosdeps(package)`: cached value if present, else
pre-register an empty placeholder, compute the dependency closure (on
`ResourceNotFound`: delete the placeholder and continue with the error's
partial closure), union in the direct rosdeps of every package of the
closure (`rosdepLoop`), union in the package's own direct rosdeps (here
`get_manifest` is *not* guarded, so its `ResourceNotFound` propagates),
cache and return.  Python iterates the closure — a list built from a set
— in unspecified order; the embedding fixes the sorted order, which does
not affect the resulting union. -/
def implicitRosdeps (mm : MM) (fuel : Nat) (pkg : String) (st : MMState) :
    Option (Except RNF (Finset String) × MMState) :=
  match aget st.rosdeps_cache pkg with
  | some e => some (.ok e.contents, st)
  | none =>
    let stP := st.withRos (aset st.rosdeps_cache pkg (.pending ∅))
    match getDepends mm fuel pkg true stP with
    | none => none
    | some (res, st1) =>
      let pk : Finset String × MMState :=
        match res with
        | .ok l => (l, st1)
        | .error e => (e.deps_sofar, st1.withRos (aerase st1.rosdeps_cache pkg))
      let sst := rosdepLoop mm (finsetList pk.1) ∅ pk.2
      match getManifest mm pkg sst.2 with
      | (.error e, st3) => some (.error e, st3)
      | (.ok m, st3) =>
        let s := sst.1 ∪ m.rosdeps.toFinset
        some (.ok s, st3.withRos (aset st3.rosdeps_cache pkg (.done s)))

/-- `RosPack.get_rosdeps(package, implicit)`. -/
def getRosdeps (mm : MM) (fuel : Nat) (pkg : String) (implicit : Bool)
    (st : MMState) : Option (Except RNF (Finset String) × MMState) :=
  if implicit then implicitRosdeps mm fuel pkg st
  else
    match getRosdepsDirect mm pkg st with
    | (r, st') => some (r, st')

/-- Special license value of `RosPack` for packages whose license was not
detected. -/
def LICENSE_NOT_FOUND : String := "license_not_found"

/-- `license_dict[k].append(v)` on a `defaultdict(list)`: append `v` to
the list bound to `k`, creating the binding (at the end, preserving
insertion order) when absent. -/
def dictAppend (d : List (String × List String)) (k v : String) :
    List (String × List String) :=
  match aget d k with
  | some l => aset d k (l ++ [v])
  | none => d ++ [(k, [v])]

/-- The `for p_name, manifest in self._manifests.items()` loop of
`RosPack.get_licenses`: for every license string of every cached
manifest, either `license_dict[license].append(p_name)` (when
`sortbylicense` is false) or — as literally written in the source —
`license_dict[manifest.license].append(pkg_name)`, keying by the
manifest's `license` attribute and appending the *requested* top-level
package name. -/
def licenseFold (sortby : Bool) (pkgName : String)
    (mans : List (String × Manifest)) : List (String × List String) :=
  mans.foldl
    (fun d pm =>
      pm.2.licenses.foldl
        (fun d lic =>
          if sortby = false then dictAppend d lic pm.1
          else dictAppend d pm.2.license pkgName)
        d)
    []

/-- The Ubuntu system-package part of `RosPack.get_licenses`: for every
rosdep name, look up its manifest among the externally obtained system
package manifests (`get_manifests_ubuntu`, an external subprocess/network
collaborator modelled as the parameter `syspkgs`), defaulting to
`LICENSE_NOT_FOUND`. -/
def sysFold (sortby : Bool) (syspkgs : List (String × Manifest))
    (rd : List String) (d : List (String × List String)) :
    List (String × List String) :=
  rd.foldl
    (fun d pkgname =>
      let lic :=
        match (syspkgs.filter (fun sp => sp.1 = pkgname)).head? with
        | some sp => sp.2.license
        | none => LICENSE_NOT_FOUND
      if sortby = false then dictAppend d pkgname lic
      else dictAppend d lic pkgname)
    d

/-- Python `list.sort()` on a list of strings. -/
def pySortStr (l : List String) : List String :=
  List.insertionSort strLe l

/-- The key order used by `OrderedDict(sorted(license_dict.items()))`
(`sorted` compares the pairs, but the keys — being dictionary keys — are
distinct, so only the key comparison ever decides). -/
def keyLe (x y : String × List String) : Prop := strLe x.1 y.1

instance : DecidableRel keyLe := fun x y =>
  inferInstanceAs (Decidable (strLe x.1 y.1))

/-- Python `OrderedDict(sorted(license_dict.items()))`: sort the grouped
mapping by key. -/
def pySortByKey (d : List (String × List String)) : List (String × List String) :=
  List.insertionSort keyLe d

/-- `RosPack.get_licenses(pkg_name, implicit, sortbylicense)`: compute
the dependency closure (a `ResourceNotFound` propagates), group the
license strings of every manifest currently in the manifest cache
(`licenseFold`), compute the rosdep closure (a `ResourceNotFound`
propagates), on Ubuntu extend with system-package licenses (`sysFold`,
with `isUbuntu` modelling the external `platform.linux_distribution()`
check and `syspkgs` the external dpkg data), then sort each group's
package list and sort the groups by key. -/
def getLicenses (mm : MM) (fuel : Nat) (pkg : String)
    (implicit sortby isUbuntu : Bool) (syspkgs : List (String × Manifest))
    (st : MMState) :
    Option (Except RNF (List (String × List String)) × MMState) :=
  match getDepends mm fuel pkg implicit st with
  | none => none
  | some (.error e, st1) => some (.error e, st1)
  | some (.ok _, st1) =>
    let d := licenseFold sortby pkg st1.manifests
    match getRosdeps mm fuel pkg implicit st1 with
    | none => none
    | some (.error e, st2) => some (.error e, st2)
    | some (.ok rd, st2) =>
      let d := if isUbuntu then sysFold sortby syspkgs (finsetList rd) d else d
      let d := d.map (fun kv => (kv.1, pySortStr kv.2))
      some (.ok (pySortByKey d), st2)

/-! ### Stack version helpers -/

/-- Python whitespace as stripped by `str.strip()`. -/
def pyWhitespace (c : Char) : Bool :=
  c = ' ' || c = '\t' || c = '\n' || c = '\r' || c = '\x0b' || c = '\x0c'

/-- Python `str.strip()`. -/
def pyStrip (s : String) : String :=
  ⟨((s.data.dropWhile pyWhitespace).reverse.dropWhile pyWhitespace).reverse⟩

/-- Python `re.compile(r'[()]').split(s)`: cut `s` at every parenthesis,
keeping empty pieces. -/
def splitParens (s : String) : List String :=
  pySplit (fun c => c = '(' || c = ')') s

/-- The `for l in text.split('\n')` loop of `_get_cmake_version`: the
first stripped line starting with `rosbuild_make_distribution` decides —
fewer than two parenthesis-split pieces raises `ValueError` (`.error`),
an empty version piece raises `ValueError`, otherwise the version is
returned; if no line matches, the loop falls through and the function
returns `None`. -/
def getCmakeVersionLines : List String → Except Unit (Option String)
  | [] => .ok none
  | l :: rest =>
    let t := pyStrip l
    if pyStartsWith t "rosbuild_make_distribution" then
      match splitParens t with
      | _ :: version :: _ =>
        if version ≠ "" then .ok (some version) else .error ()
      | _ => .error ()
    else getCmakeVersionLines rest

/-- `_get_cmake_version(text)`: `text.split('\n')` then the line loop. -/
def getCmakeVersion (text : String) : Except Unit (Option String) :=
  getCmakeVersionLines (pySplit (fun c => c = '\n') text)

/-- A stack directory as `get_stack_version_by_dir` observes it.
`stackXml` models the presence of `stack.xml` together with the external
parse `parse_stack_file` (from `rospkg/stack.py`, not under `src/`):
`some (.ok v)` is a parsed stack whose declared version is `v` (possibly
absent), `some (.error ())` is an `InvalidStack` parse failure, `none`
means no `stack.xml`.  `cmake` is the text of `CMakeLists.txt` when that
file exists. -/
structure StackDir where
  stackXml : Option (Except Unit (Option String))
  cmake : Option String

/-- `get_stack_version_by_dir(stack_dir)`: return the parsed stack
manifest's version if `stack.xml` parses (an `InvalidStack` is swallowed
and falls through); else, if `CMakeLists.txt` exists, run
`_get_cmake_version` and turn its `ValueError` into `None`; else `None`. -/
def getStackVersionByDir (sd : StackDir) : Option String :=
  match sd.stackXml with
  | some (.ok v) => v
  | _ =>
    match sd.cmake with
    | some text =>
      match getCmakeVersion text with
      | .ok v => v
      | .error _ => none
    | none => none

/-! ### The path scanner `list_by_path` -/

/-- The data `list_by_path` reads from a `package.xml`: the text of the
`name` element (as found, before `.strip(' \n\r\t')`), and whether an
`export/metapackage` element is present. -/
structure PkgXml where
  pname : String
  isMetapackage : Bool
deriving DecidableEq, Repr

/-- A directory of the scanned tree: its base name, the plain marker
files it contains (`CATKIN_IGNORE`, `rospack_nosubdirs`, `manifest.xml`,
`stack.xml` — a `package.xml` is represented by the `pkg` field instead,
carrying its parsed content), and its subdirectories. -/
inductive FSTree where
  | mk (dname : String) (files : List String) (pkg : Option PkgXml)
      (subdirs : List FSTree)
deriving Repr

def FSTree.dname : FSTree → String
  | .mk n _ _ _ => n

def FSTree.files : FSTree → List String
  | .mk _ f _ _ => f

def FSTree.pkg : FSTree → Option PkgXml
  | .mk _ _ p _ => p

def FSTree.subdirs : FSTree → List FSTree
  | .mk _ _ _ s => s

/-- Python `dirs.remove(di)`: remove the first entry with the given
directory name. -/
def removeFirstName (n : String) : List FSTree → List FSTree
  | [] => []
  | t :: rest => if t.dname = n then rest else t :: removeFirstName n rest

/-- Python `di[0] == '.'` on a directory name. -/
def isHiddenName (s : String) : Bool :=
  match s.data with
  | c :: _ => c = '.'
  | [] => false

theorem removeFirstName_length_lt {n : String} {l : List FSTree}
    (h : ∃ t ∈ l, t.dname = n) : (removeFirstName n l).length < l.length := by
  induction l with
  | nil => rcases h with ⟨t, ht, _⟩; cases ht
  | cons a rest ih =>
    by_cases ha : a.dname = n
    · simp [removeFirstName, ha]
    · rcases h with ⟨t, ht, htn⟩
      rcases List.mem_cons.mp ht with h1 | h2
      · exact absurd (h1 ▸ htn) ha
      · simpa [removeFirstName, ha] using ih ⟨t, h2, htn⟩

/-- The list comprehension
`[dirs.remove(di) for di in dirs if di[0] == '.']` of `list_by_path`: an
index-based iteration over `dirs` that removes hidden entries *while
iterating*, with Python's semantics that a removal shifts the remaining
entries under the unchanged index (so the element right after a removed
one is skipped). -/
def pyRemoveHiddenGo (i : Nat) (l : List FSTree) : List FSTree :=
  if h : i < l.length then
    if isHiddenName (l.get ⟨i, h⟩).dname then
      pyRemoveHiddenGo (i + 1) (removeFirstName (l.get ⟨i, h⟩).dname l)
    else pyRemoveHiddenGo (i + 1) l
  else l
termination_by l.length - i
decreasing_by
  · have hlt : (removeFirstName ((l.get ⟨i, h⟩).dname) l).length < l.length :=
      removeFirstName_length_lt ⟨l.get ⟨i, h⟩, List.get_mem l _ _, rfl⟩
    omega
  · omega

def pyRemoveHidden (l : List FSTree) : List FSTree := pyRemoveHiddenGo 0 l

theorem removeFirstName_sublist (n : String) (l : List FSTree) :
    (removeFirstName n l).Sublist l := by
  induction l with
  | nil => simp [removeFirstName]
  | cons a rest ih =>
    by_cases ha : a.dname = n
    · simp [removeFirstName, ha]
    · simpa [removeFirstName, ha] using List.Sublist.cons₂ a ih

theorem pyRemoveHiddenGo_sublist_aux (N : Nat) :
    ∀ i l, l.length - i ≤ N → (pyRemoveHiddenGo i l).Sublist l := by
  induction N with
  | zero =>
    intro i l hN
    unfold pyRemoveHiddenGo
    split
    case isTrue hil => omega
    case isFalse hil => exact List.Sublist.refl l
  | succ N ih =>
    intro i l hN
    unfold pyRemoveHiddenGo
    split
    case isTrue hil =>
      split
      case isTrue hhid =>
        have hlt : (removeFirstName ((l.get ⟨i, hil⟩).dname) l).length < l.length :=
          removeFirstName_length_lt ⟨l.get ⟨i, hil⟩, List.get_mem l _ _, rfl⟩
        exact (ih (i + 1) _ (by omega)).trans (removeFirstName_sublist _ l)
      case isFalse hhid => exact ih (i + 1) l (by omega)
    case isFalse hil => exact List.Sublist.refl l

theorem pyRemoveHiddenGo_sublist (i : Nat) (l : List FSTree) :
    (pyRemoveHiddenGo i l).Sublist l :=
  pyRemoveHiddenGo_sublist_aux l.length i l (by omega)

theorem sublist_sizeOf_le {l₁ l₂ : List FSTree} (h : l₁.Sublist l₂) :
    sizeOf l₁ ≤ sizeOf l₂ := by
  induction h with
  | slnil => simp
  | cons a _ ih => simp only [List.cons.sizeOf_spec]; omega
  | cons₂ a _ ih => simp only [List.cons.sizeOf_spec]; omega

/-- Termination helper for the scanner: pruning hidden directories never
grows a forest. -/
theorem pyRemoveHidden_sizeOf_lt (dn : String) (files : List String)
    (pkg : Option PkgXml) (sb : List FSTree) :
    sizeOf (pyRemoveHidden sb) < sizeOf (FSTree.mk dn files pkg sb) := by
  have h1 : sizeOf (pyRemoveHidden sb) ≤ sizeOf sb :=
    sublist_sizeOf_le (pyRemoveHiddenGo_sublist 0 sb)
  simp only [FSTree.mk.sizeOf_spec]
  omega

/-- The classification test on a `package.xml`
(`(manifest_name == STACK_FILE and is_metapackage) or (manifest_name ==
MANIFEST_FILE and not is_metapackage) or manifest_name == PACKAGE_FILE`). -/
def pkgCriteria (m : String) (meta : Bool) : Prop :=
  (m = STACK_FILE ∧ meta = true) ∨ (m = MANIFEST_FILE ∧ meta = false) ∨
    m = PACKAGE_FILE

instance (m : String) (meta : Bool) : Decidable (pkgCriteria m meta) := by
  unfold pkgCriteria; infer_instance

/-- The character set of the `.strip(' \n\r\t')` applied to the
`package.xml` name. -/
def stripNameChar (c : Char) : Bool :=
  c = ' ' || c = '\n' || c = '\r' || c = '\t'

/-- `root.findtext('name').strip(' \n\r\t')`. -/
def pyStripName (s : String) : String :=
  ⟨((s.data.dropWhile stripNameChar).reverse.dropWhile stripNameChar).reverse⟩

/-- The resource name to record from the `package.xml` branch of
`list_by_path`, when that branch records (matches the search criteria). -/
def pkgRecordName (m : String) : Option PkgXml → Option String
  | some px =>
    if pkgCriteria m px.isMetapackage then some (pyStripName px.pname) else none
  | none => none

/-- `manifest_name in files`, with a `package.xml` represented by the
`pkg` field. -/
def manifestPresent (m : String) (files : List String) (pkg : Option PkgXml) :
    Prop :=
  m ∈ files ∨ (m = PACKAGE_FILE ∧ pkg.isSome = true)

instance (m : String) (files : List String) (pkg : Option PkgXml) :
    Decidable (manifestPresent m files pkg) := by
  unfold manifestPresent; infer_instance

/-- `if resource_name not in resources: resources.append(resource_name);
cache[resource_name] = d`. -/
def recordInto (res : List String) (cache : List (String × String))
    (rn cur : String) : List String × List (String × String) :=
  if rn ∈ res then (res, cache) else (res ++ [rn], aset cache rn cur)

mutual
/-- `list_by_path(manifest_name, path, cache)`, embedded over an `FSTree`
with current directory path `cur` (the caller passes the absolute search
path for the root, whose base name is the root's `dname`; children get
`cur ++ "/" ++ dname`).  The `os.walk` loop with in-place pruning becomes
a recursive classification of the current directory:

1. `CATKIN_IGNORE` present: prune, record nothing;
2. a `package.xml` matching the search criteria: record its stripped
   `name`, prune;
3. `manifest_name` present: record the directory base name, prune;
4. a `manifest.xml` or `package.xml` of the other kind: prune;
5. `rospack_nosubdirs` present: prune;
6. otherwise recurse into the non-hidden subdirectories.

`res` is the `resources` accumulator (fresh per call from the manager)
and `cache` the name-to-path cache mutated in place. -/
def listByPath (m : String) (t : FSTree) (cur : String) (res : List String)
    (cache : List (String × String)) :
    List String × List (String × String) :=
  match t with
  | .mk dn files pkg subs =>
    if "CATKIN_IGNORE" ∈ files then (res, cache)
    else
      match pkgRecordName m pkg with
      | some rn => recordInto res cache rn cur
      | none =>
        if manifestPresent m files pkg then recordInto res cache dn cur
        else if MANIFEST_FILE ∈ files ∨ pkg.isSome = true then (res, cache)
        else if "rospack_nosubdirs" ∈ files then (res, cache)
        else listByPathForest m (pyRemoveHidden subs) cur res cache
termination_by sizeOf t
decreasing_by
  exact pyRemoveHidden_sizeOf_lt _ _ _ _

/-- The recursion of `os.walk` into the surviving subdirectories, in
order, threading `resources` and the cache. -/
def listByPathForest (m : String) (ts : List FSTree) (parent : String)
    (res : List String) (cache : List (String × String)) :
    List String × List (String × String) :=
  match ts with
  | [] => (res, cache)
  | t :: rest =>
    let rc := listByPath m t (parent ++ "/" ++ t.dname) res cache
    listByPathForest m rest parent rc.1 rc.2
termination_by sizeOf ts
decreasing_by
  · simp only [List.cons.sizeOf_spec]; omega
  · simp only [List.cons.sizeOf_spec]; omega
end

mutual
/-- Proof-side characterization of a scan: the ordered list of
`(name, dir)` record attempts `list_by_path` makes on a tree.  The
classification of a directory never consults `resources` or the cache,
so this list is an invariant of the tree alone; `listByPath` is its
replay (`listByPath_eq_applyAtt`). -/
def attemptsT (m : String) (t : FSTree) (cur : String) : List (String × String) :=
  match t with
  | .mk dn files pkg subs =>
    if "CATKIN_IGNORE" ∈ files then []
    else
      match pkgRecordName m pkg with
      | some rn => [(rn, cur)]
      | none =>
        if manifestPresent m files pkg then [(dn, cur)]
        else if MANIFEST_FILE ∈ files ∨ pkg.isSome = true then []
        else if "rospack_nosubdirs" ∈ files then []
        else attemptsF m (pyRemoveHidden subs) cur
termination_by sizeOf t
decreasing_by
  exact pyRemoveHidden_sizeOf_lt _ _ _ _

/-- `attemptsT` over a forest. -/
def attemptsF (m : String) (ts : List FSTree) (parent : String) :
    List (String × String) :=
  match ts with
  | [] => []
  | t :: rest =>
    attemptsT m t (parent ++ "/" ++ t.dname) ++ attemptsF m rest parent
termination_by sizeOf ts
decreasing_by
  · simp only [List.cons.sizeOf_spec]; omega
  · simp only [List.cons.sizeOf_spec]; omega
end

/-- Replay a list of record attempts over the `(resources, cache)`
accumulator pair: each attempt records only if its name is new. -/
def applyAtt : List (String × String) → List String → List (String × String) →
    List String × List (String × String)
  | [], res, c => (res, c)
  | (n, d) :: rest, res, c =>
    if n ∈ res then applyAtt rest res c
    else applyAtt rest (res ++ [n]) (aset c n d)

/-- A search path entry: the absolute path string handed to
`list_by_path` and the directory tree found there. -/
structure SearchRoot where
  path : String
  tree : FSTree

/-- `ManifestManager._update_location_cache`: starting from an empty
cache, crawl the search paths in reverse order, each scan updating the
shared cache in place (so scans of paths occurring earlier in the
original order overwrite entries written before). -/
def updateLocationCache (m : String) (roots : List SearchRoot) :
    List (String × String) :=
  (roots.reverse).foldl (fun c r => (listByPath m r.tree r.path [] c).2) []

/-- A single search path scanned alone (fresh `resources`, empty cache):
its discoveries and where it records them. -/
def scanPath (m : String) (r : SearchRoot) :
    List String × List (String × String) :=
  listByPath m r.tree r.path [] []

/-- `ManifestManager.get_path(name)` after the lazy location-cache
build: the cached path, or a `ResourceNotFound` carrying the search
paths. -/
def getPath (m : String) (roots : List SearchRoot) (name : String) :
    Except RNF String :=
  match aget (updateLocationCache m roots) name with
  | some p => .ok p
  | none => .error ⟨roots.map SearchRoot.path, ∅, ∅⟩

/-! ### Proof-side predicates about manager states -/

/-- `a` directly depends on `b`: the indexed manifest of `a` lists `b`. -/
def DirectDep (mm : MM) (a b : String) : Prop :=
  ∃ m, aget mm.env a = some m ∧ b ∈ m.depends

/-- Every manifest held in the manifest cache is the indexed one. -/
def InvManifests (mm : MM) (st : MMState) : Prop :=
  ∀ n m, aget st.manifests n = some m → aget mm.env n = some m

/-- Every *completed* dependency-cache entry contains at least the direct
dependencies of its name (completed entries are only ever written by a
frame that unions `names` in before caching). -/
def InvDepCache (mm : MM) (st : MMState) : Prop :=
  ∀ n s, aget st.depends_cache n = some (.done s) →
    ∀ m, aget mm.env n = some m → ∀ d ∈ m.depends, d ∈ s

/-- The state invariant maintained by every completed operation. -/
def Inv (mm : MM) (st : MMState) : Prop :=
  InvManifests mm st ∧ InvDepCache mm st

/-- No in-progress placeholder sits in the dependency cache (true between
top-level calls: every frame replaces or deletes its placeholder before
returning). -/
def NoPending (st : MMState) : Prop :=
  ∀ n s, aget st.depends_cache n = some (.pending s) → False

/-- A closed resource world: every dependency name of every indexed
manifest is itself indexed. -/
def ClosedEnv (mm : MM) : Prop :=
  ∀ p ∈ mm.env, ∀ d ∈ p.2.depends, (aget mm.env d).isSome = true

/-- `name` has an in-progress placeholder in the dependency cache. -/
def IsPending (st : MMState) (name : String) : Prop :=
  ∃ s, aget st.depends_cache name = some (.pending s)

/-- Extract the set of a successful `get_depends` outcome (`none` when
the call raised, or the fuel ran out). -/
def okSet (r : Option (Except RNF (Finset String) × MMState)) :
    Option (Finset String) :=
  match r with
  | some (.ok s, _) => some s
  | _ => none

/-- A three-resource world whose manifests form a dependency cycle
`a → b → c → a` (test fixture). -/
def cyc (a b c : String) : MM :=
  ⟨[], [(a, ⟨[b], [], "", []⟩), (b, ⟨[c], [], "", []⟩), (c, ⟨[a], [], "", []⟩)]⟩

/-- A closed three-resource world (test fixture): `W` depends on `Z` and
`Y`, `Z` depends back on `W`, `Y` has no dependencies.  Every dependency
is indexed and every manifest parses. -/
def mmWZY : MM :=
  ⟨[], [("W", ⟨["Z", "Y"], [], "", []⟩), ("Z", ⟨["W"], [], "", []⟩),
    ("Y", ⟨[], [], "", []⟩)]⟩

/-! ## Association-list lemmas -/

theorem aget_aset_self {β : Type} (l : List (String × β)) (k : String) (v : β) :
    aget (aset l k v) k = some v := by
  induction l with
  | nil => simp [aset, aget]
  | cons p rest ih =>
    obtain ⟨k', v'⟩ := p
    by_cases h : k' = k
    · simp [aset, aget, h]
    · simp [aset, aget, h, ih]

theorem aget_aset_ne {β : Type} (l : List (String × β)) (k k' : String) (v : β)
    (h : k' ≠ k) : aget (aset l k v) k' = aget l k' := by
  induction l with
  | nil => simp [aset, aget, Ne.symm h]
  | cons p rest ih =>
    obtain ⟨k₀, v₀⟩ := p
    by_cases h0 : k₀ = k
    · subst h0
      simp [aset, aget, Ne.symm h, h]
    · simp [aset, aget, h0, ih]

theorem aget_append_of_none {β : Type} {l₁ : List (String × β)}
    (l₂ : List (String × β)) {k : String} (h : aget l₁ k = none) :
    aget (l₁ ++ l₂) k = aget l₂ k := by
  induction l₁ with
  | nil => simp
  | cons p rest ih =>
    obtain ⟨k₀, v₀⟩ := p
    by_cases h0 : k₀ = k
    · simp [aget, h0] at h
    · simp [aget, h0] at h ⊢
      exact ih h

theorem aget_append_of_some {β : Type} {l₁ : List (String × β)}
    (l₂ : List (String × β)) {k : String} {v : β} (h : aget l₁ k = some v) :
    aget (l₁ ++ l₂) k = some v := by
  induction l₁ with
  | nil => simp [aget] at h
  | cons p rest ih =>
    obtain ⟨k₀, v₀⟩ := p
    by_cases h0 : k₀ = k
    · simp [aget, h0] at h ⊢
      exact h
    · simp [aget, h0] at h ⊢
      exact ih h

theorem aset_aset {β : Type} (l : List (String × β)) (k : String) (v w : β) :
    aset (aset l k v) k w = aset l k w := by
  induction l with
  | nil => simp [aset]
  | cons p rest ih =>
    obtain ⟨k₀, v₀⟩ := p
    by_cases h0 : k₀ = k
    · simp [aset, h0]
    · simp [aset, h0, ih]

theorem aerase_aset_of_none {β : Type} (l : List (String × β)) (k : String)
    (v : β) (h : aget l k = none) : aerase (aset l k v) k = l := by
  induction l with
  | nil => simp [aset, aerase]
  | cons p rest ih =>
    obtain ⟨k₀, v₀⟩ := p
    by_cases h0 : k₀ = k
    · simp [aget, h0] at h
    · simp [aget, h0] at h
      simp [aset, aerase, h0, ih h]

theorem aget_some_mem_keys {β : Type} {l : List (String × β)} {k : String}
    {v : β} (h : aget l k = some v) : k ∈ l.map Prod.fst := by
  induction l with
  | nil => simp [aget] at h
  | cons p rest ih =>
    obtain ⟨k₀, v₀⟩ := p
    by_cases h0 : k₀ = k
    · simp [h0]
    · simp [aget, h0] at h
      simp [ih h]

/-! ## `getManifest` facts -/

theorem getManifest_dep_cache (mm : MM) (name : String) (st : MMState) :
    (getManifest mm name st).2.depends_cache = st.depends_cache := by
  unfold getManifest
  rcases aget st.manifests name with _ | m
  · rcases aget mm.env name with _ | m <;> simp
  · simp

theorem getManifest_ros_cache (mm : MM) (name : String) (st : MMState) :
    (getManifest mm name st).2.rosdeps_cache = st.rosdeps_cache := by
  unfold getManifest
  rcases aget st.manifests name with _ | m
  · rcases aget mm.env name with _ | m <;> simp
  · simp

theorem getManifest_ok_env {mm : MM} {name : String} {st : MMState} {m : Manifest}
    {st' : MMState} (h : getManifest mm name st = (.ok m, st'))
    (hc : InvManifests mm st) : aget mm.env name = some m := by
  unfold getManifest at h
  rcases hm : aget st.manifests name with _ | m'
  · rw [hm] at h
    rcases he : aget mm.env name with _ | m'
    · rw [he] at h; simp at h
    · rw [he] at h
      simp at h
      exact congrArg some h.1
  · rw [hm] at h
    simp at h
    exact h.1 ▸ hc name m' hm

theorem getManifest_of_env_some {mm : MM} {name : String} (st : MMState)
    {m : Manifest} (henv : aget mm.env name = some m) :
    ∃ m' st', getManifest mm name st = (.ok m', st') := by
  unfold getManifest
  rcases hm : aget st.manifests name with _ | m'
  · rw [henv]
    exact ⟨m, _, rfl⟩
  · exact ⟨m', st, rfl⟩

theorem getManifest_error_state {mm : MM} {name : String} {st : MMState}
    {e : RNF} {st' : MMState} (h : getManifest mm name st = (.error e, st')) :
    st' = st ∧ e = ⟨mm.ros_paths, ∅, ∅⟩ ∧ aget st.manifests name = none ∧
      aget mm.env name = none := by
  unfold getManifest at h
  rcases hm : aget st.manifests name with _ | m'
  · rw [hm] at h
    rcases he : aget mm.env name with _ | m'
    · rw [he] at h
      simp at h
      exact ⟨h.2.symm, h.1.symm, rfl, rfl⟩
    · rw [he] at h; simp at h
  · rw [hm] at h; simp at h

theorem getManifest_inv {mm : MM} {name : String} {st : MMState}
    (hc : InvManifests mm st) : InvManifests mm (getManifest mm name st).2 := by
  unfold getManifest
  rcases hm : aget st.manifests name with _ | m'
  · rcases he : aget mm.env name with _ | m'
    · simpa using hc
    · intro n m h
      simp only at h
      rcases haux : aget st.manifests n with _ | mf
      · rw [aget_append_of_none _ haux] at h
        by_cases hn : name = n
        · subst hn
          simp [aget] at h
          rw [← h]
          exact he
        · simp [aget, hn] at h
      · rw [aget_append_of_some _ haux] at h
        injection h with h
        rw [← h]
        exact hc n mf haux
  · simpa using hc

/-! ## Frame analysis of `getDepends` -/

/-- One-step case analysis of an implicit `get_depends` call that
completed within its fuel: it was a cache hit, a failure to read `name`'s
own manifest (which deletes the placeholder, restoring the state, and
re-raises with `name` added to `deps_unavailable`), or a completed frame
that stored `s = sAcc ∪ names` under `name` before returning or raising. -/
theorem getDepends_frame {mm : MM} {fuel : Nat} {name : String} {st : MMState}
    {out : Except RNF (Finset String) × MMState}
    (h : getDepends mm (fuel + 1) name true st = some out) :
    (∃ entry, aget st.depends_cache name = some entry ∧
        out = (.ok entry.contents, st)) ∨
    (aget st.depends_cache name = none ∧
      aget st.manifests name = none ∧ aget mm.env name = none ∧
      out = (.error ⟨mm.ros_paths, ∅, insert name ∅⟩, st)) ∨
    (∃ m st1 sAcc unavail st2,
      aget st.depends_cache name = none ∧
      getManifest mm name (st.withDep (aset st.depends_cache name (.pending ∅))) =
        (.ok m, st1) ∧
      depLoop (fun p s => getDepends mm fuel p true s) name m.depends ∅ ∅ st1 =
        some (sAcc, unavail, st2) ∧
      out = (if unavail ≠ ∅ ∨ sAcc ∪ m.depends.toFinset = ∅ then
          (.error ⟨mm.ros_paths, sAcc ∪ m.depends.toFinset, unavail⟩,
            st2.withDep (aset st2.depends_cache name
              (.done (sAcc ∪ m.depends.toFinset))))
        else
          (.ok (sAcc ∪ m.depends.toFinset),
            st2.withDep (aset st2.depends_cache name
              (.done (sAcc ∪ m.depends.toFinset)))))) := by
  rw [show fuel + 1 = Nat.succ fuel from rfl] at h
  simp only [getDepends] at h
  split at h
  next entry heq =>
    injection h with h
    exact Or.inl ⟨entry, heq, h.symm⟩
  next heq =>
    split at h
    next e st1 hgm =>
      obtain ⟨hst1, he, hmans, henv⟩ := getManifest_error_state hgm
      subst he
      refine Or.inr (Or.inl ⟨heq, ?_, henv, ?_⟩)
      · simpa [MMState.withDep] using hmans
      · have hstx : st1.withDep (aerase st1.depends_cache name) = st := by
          subst hst1
          simp only [MMState.withDep]
          rw [aerase_aset_of_none _ _ _ heq]
        rw [hstx] at h
        injection h with h
        exact h.symm
    next m st1 hgm =>
      split at h
      next hdl => exact absurd h (by simp)
      next sAcc unavail st2 hdl =>
        refine Or.inr (Or.inr ⟨m, st1, sAcc, unavail, st2, heq, hgm, hdl, ?_⟩)
        split at h
        next hcond =>
          rw [if_pos hcond]
          injection h with h
          exact h.symm
        next hcond =>
          rw [if_neg hcond]
          injection h with h
          exact h.symm

/-! ## Claim C4 -/

/-- Claim C4: whenever `get_depends(name, implicit=true)` raises a
not-found error after having successfully read `name`'s own manifest
(here: `name` is indexed by `env`, so the manifest fetch cannot fail),
the best-effort partial closure — the error's `deps_sofar` — was first
stored in the dependency cache under `name`, and a subsequent identical
call returns exactly that cached closure without raising and without
recomputation (the state is returned unchanged). -/
theorem getDepends_error_caches {mm : MM} {fuel f2 : Nat} {name : String}
    {st st' : MMState} {e : RNF} {m : Manifest}
    (henv : aget mm.env name = some m)
    (h : getDepends mm fuel name true st = some (.error e, st')) :
    aget st'.depends_cache name = some (.done e.deps_sofar) ∧
    getDepends mm (f2 + 1) name true st' = some (.ok e.deps_sofar, st') := by
  cases fuel with
  | zero => simp [getDepends] at h
  | succ fuel =>
    rcases getDepends_frame h with
      ⟨entry, hc, hout⟩ | ⟨_, _, henv', _⟩ |
      ⟨m', st1, sAcc, unavail, st2, hc, hgm, hdl, hout⟩
    · simp at hout
    · rw [henv'] at henv
      exact absurd henv (by simp)
    · by_cases hcond : unavail ≠ ∅ ∨ sAcc ∪ m'.depends.toFinset = ∅
      · rw [if_pos hcond] at hout
        injection hout with he hst
        injection he with he
        have hsofar : e.deps_sofar = sAcc ∪ m'.depends.toFinset := by rw [he]
        have hhit : aget st'.depends_cache name = some (.done e.deps_sofar) := by
          rw [hst, hsofar]
          simp only [MMState.withDep]
          exact aget_aset_self _ _ _
        refine ⟨hhit, ?_⟩
        rw [show f2 + 1 = Nat.succ f2 from rfl]
        simp only [getDepends, hhit, CEntry.contents]
      · rw [if_neg hcond] at hout
        simp at hout

/-! ## Claim C10 -/

theorem dependsOnLoop_not_self (mm : MM) (fuel : Nat) (name : String)
    (implicit : Bool) :
    ∀ (L acc : List String) (st : MMState) (out : List String × MMState),
      dependsOnLoop mm fuel name implicit L acc st = some out →
      name ∉ acc → name ∉ out.1 := by
  intro L
  induction L with
  | nil =>
    intro acc st out h hna
    unfold dependsOnLoop at h
    injection h with h
    rw [← h]
    exact hna
  | cons r rest ih =>
    intro acc st out h hna
    unfold dependsOnLoop at h
    by_cases hr : r = name
    · rw [if_pos hr] at h
      exact ih acc st out h hna
    · rw [if_neg hr] at h
      cases implicit with
      | true =>
        simp only [] at h
        split at h
        · exact absurd h (by simp)
        next deps st1 hgd =>
          refine ih _ _ _ h ?_
          by_cases hmem : name ∈ deps
          · rw [if_pos hmem]
            simp [hna, Ne.symm hr]
          · rw [if_neg hmem]
            exact hna
        next e st1 hgd => exact ih _ _ _ h hna
      | false =>
        simp only [] at h
        split at h
        next mr st1 hgm =>
          refine ih _ _ _ h ?_
          by_cases hmem : name ∈ mr.depends
          · rw [if_pos hmem]
            simp [hna, Ne.symm hr]
          · rw [if_neg hmem]
            exact hna
        next e st1 hgm => exact ih _ _ _ h hna

/-- Claim C10: for every resource name and both values of `implicit`, the
list returned by `get_depends_on(name, implicit)` never contains `name`
itself (the loop skips `r == name`), even when `name` participates in a
dependency cycle and therefore appears in its own transitive closure. -/
theorem getDependsOn_not_self {mm : MM} {fuel : Nat} {name : String}
    {implicit : Bool} {st : MMState} {out : List String × MMState}
    (h : getDependsOn mm fuel name implicit st = some out) : name ∉ out.1 :=
  dependsOnLoop_not_self mm fuel name implicit _ [] st out h (by simp)

/-! ## Claim C2 -/

/-- Claim C2 (counterexample): on a world with the single indexed
resource `alpha`, whose manifest parses and declares no dependencies,
`get_depends("alpha", implicit=true)` does not return the empty set — it
raises a not-found error (carrying an empty partial closure and an empty
unavailable set), because `get_depends` raises whenever the final
dependency set is empty (`0 == len(s)`). -/
theorem getDepends_no_deps_counterexample :
    (getDepends ⟨["/ros"], [("alpha", ⟨[], [], "BSD", ["BSD"]⟩)]⟩ 2 "alpha" true
        st0).map
      (fun p =>
        match p.1 with
        | .ok _ => none
        | .error e => some (e.deps_sofar, e.deps_unavailable)) =
    some (some (∅, ∅)) := by decide

/-- Claim C2 (amended): for every indexed resource whose manifest parses
and declares no dependencies, `get_depends(name, implicit=true)` first
caches the empty closure and then *raises* a not-found error whose
partial closure and unavailable set are both empty; a subsequent
identical call returns the cached empty set without raising. -/
theorem getDepends_no_deps_raises {mm : MM} (fuel f2 : Nat) {name : String}
    {m : Manifest} {st : MMState}
    (henv : aget mm.env name = some m) (hdeps : m.depends = [])
    (hcons : InvManifests mm st)
    (hmiss : aget st.depends_cache name = none) :
    ∃ st',
      getDepends mm (fuel + 1) name true st =
        some (.error ⟨mm.ros_paths, ∅, ∅⟩, st') ∧
      aget st'.depends_cache name = some (.done ∅) ∧
      getDepends mm (f2 + 1) name true st' = some (.ok ∅, st') := by
  obtain ⟨m', st1, hgm⟩ :=
    getManifest_of_env_some
      (st.withDep (aset st.depends_cache name (.pending ∅))) henv
  have hm' : m' = m := by
    have hoe := getManifest_ok_env hgm (fun n mq hq => hcons n mq hq)
    rw [henv] at hoe
    injection hoe with hx
    exact hx.symm
  subst hm'
  have hdc : st1.depends_cache = aset st.depends_cache name (.pending ∅) := by
    have hx := getManifest_dep_cache mm name
      (st.withDep (aset st.depends_cache name (.pending ∅)))
    rw [hgm] at hx
    simpa [MMState.withDep] using hx
  refine ⟨st1.withDep (aset st1.depends_cache name (.done ∅)), ?_, ?_, ?_⟩
  · rw [show fuel + 1 = Nat.succ fuel from rfl]
    simp only [getDepends, hmiss, hgm, hdeps, depLoop, List.toFinset_nil,
      Finset.union_empty, Finset.empty_union]
    simp
  · simp only [MMState.withDep]
    exact aget_aset_self _ _ _
  · have hhit : aget (st1.withDep (aset st1.depends_cache name
        (.done ∅))).depends_cache name = some (.done ∅) := by
      simp only [MMState.withDep]
      exact aget_aset_self _ _ _
    rw [show f2 + 1 = Nat.succ f2 from rfl]
    simp only [getDepends, hhit, CEntry.contents]

/-- Witness for `getDepends_no_deps_raises` at a concrete input. -/
theorem getDepends_no_deps_raises_witness :
    (aget (⟨["/ros"], [("alpha", ⟨[], [], "BSD", ["BSD"]⟩)]⟩ : MM).env "alpha" =
        some (⟨[], [], "BSD", ["BSD"]⟩ : Manifest)) ∧
    (∃ st',
      getDepends ⟨["/ros"], [("alpha", ⟨[], [], "BSD", ["BSD"]⟩)]⟩ 1 "alpha" true
          st0 =
        some (.error ⟨["/ros"], ∅, ∅⟩, st') ∧
      aget st'.depends_cache "alpha" = some (.done ∅) ∧
      getDepends ⟨["/ros"], [("alpha", ⟨[], [], "BSD", ["BSD"]⟩)]⟩ 1 "alpha" true
          st' = some (.ok ∅, st')) :=
  ⟨by decide,
    @getDepends_no_deps_raises ⟨["/ros"], [("alpha", ⟨[], [], "BSD", ["BSD"]⟩)]⟩
      0 0 "alpha" ⟨[], [], "BSD", ["BSD"]⟩ st0 (by decide) rfl
      (fun n mq hq => by simp [st0, aget] at hq) (by decide)⟩

/-! ## Claim C3 -/

/-- One unfolding of the implicit branch of `getDepends` (definitional). -/
theorem getDepends_succ (mm : MM) (fuel : Nat) (name : String) (st : MMState) :
    getDepends mm (fuel + 1) name true st =
      (match aget st.depends_cache name with
      | some entry => some (.ok entry.contents, st)
      | none =>
        match getManifest mm name
            (st.withDep (aset st.depends_cache name (.pending ∅))) with
        | (.error e, st1) =>
          some (.error ⟨e.ros_paths, e.deps_sofar, insert name e.deps_unavailable⟩,
            st1.withDep (aerase st1.depends_cache name))
        | (.ok m, st1) =>
          match depLoop (fun p s => getDepends mm fuel p true s) name
              m.depends ∅ ∅ st1 with
          | none => none
          | some (sAcc, unavail, st2) =>
            if unavail ≠ ∅ ∨ sAcc ∪ m.depends.toFinset = ∅ then
              some (.error ⟨mm.ros_paths, sAcc ∪ m.depends.toFinset, unavail⟩,
                st2.withDep (aset st2.depends_cache name
                  (.done (sAcc ∪ m.depends.toFinset))))
            else
              some (.ok (sAcc ∪ m.depends.toFinset),
                st2.withDep (aset st2.depends_cache name
                  (.done (sAcc ∪ m.depends.toFinset))))) := rfl

/-- Claim C3: for all distinct resources `a`, `b`, `c` whose manifests
form the dependency cycle `a → b → c → a`, `get_depends` with
`implicit=true` on any of the three terminates (it completes within fuel
4: the empty placeholder pre-registered under the name being computed
stops the recursion when the cycle closes) and returns, without raising,
a set containing at least the other two names. -/
theorem getDepends_cycle_terminates {a b c : String}
    (hab : a ≠ b) (hac : a ≠ c) (hbc : b ≠ c) :
    (∃ s, okSet (getDepends (cyc a b c) 4 a true st0) = some s ∧
      b ∈ s ∧ c ∈ s) ∧
    (∃ s, okSet (getDepends (cyc a b c) 4 b true st0) = some s ∧
      a ∈ s ∧ c ∈ s) ∧
    (∃ s, okSet (getDepends (cyc a b c) 4 c true st0) = some s ∧
      a ∈ s ∧ b ∈ s) := by
  have ha1 : getDepends
      ⟨[], [(a, ⟨[b], [], "", []⟩), (b, ⟨[c], [], "", []⟩), (c, ⟨[a], [], "", []⟩)]⟩
      1 a true
      ⟨[(a, ⟨[b], [], "", []⟩), (b, ⟨[c], [], "", []⟩), (c, ⟨[a], [], "", []⟩)],
        [(a, .pending ∅), (b, .pending ∅), (c, .pending ∅)], []⟩ =
      some (.ok ∅,
        ⟨[(a, ⟨[b], [], "", []⟩), (b, ⟨[c], [], "", []⟩), (c, ⟨[a], [], "", []⟩)],
          [(a, .pending ∅), (b, .pending ∅), (c, .pending ∅)], []⟩) := by
    rw [show (1 : Nat) = 0 + 1 from rfl, getDepends_succ]
    simp only [aget, aset, getManifest, MMState.withDep, depLoop, cacheUnion,
      CEntry.contents, hab, hac, hbc, Ne.symm hab, Ne.symm hac, Ne.symm hbc,
      eq_self_iff_true, if_true, ite_true, if_false, ite_false,
      List.cons_append, List.nil_append, List.toFinset_cons, List.toFinset_nil,
      Finset.empty_union, Finset.union_empty, Finset.union_eq_empty,
      Finset.insert_ne_empty, ne_eq, not_true, not_false_iff, false_or, or_false,
      false_and, and_false, or_self, not_true_eq_false]
  have ha2 : getDepends
      ⟨[], [(a, ⟨[b], [], "", []⟩), (b, ⟨[c], [], "", []⟩), (c, ⟨[a], [], "", []⟩)]⟩
      2 c true
      ⟨[(a, ⟨[b], [], "", []⟩), (b, ⟨[c], [], "", []⟩)],
        [(a, .pending ∅), (b, .pending ∅)], []⟩ =
      some (.ok (insert a ∅),
        ⟨[(a, ⟨[b], [], "", []⟩), (b, ⟨[c], [], "", []⟩), (c, ⟨[a], [], "", []⟩)],
          [(a, .pending ∅), (b, .pending ∅), (c, .done (insert a ∅))], []⟩) := by
    rw [show (2 : Nat) = 1 + 1 from rfl, getDepends_succ]
    simp only [ha1, aget, aset, getManifest, MMState.withDep, depLoop, cacheUnion,
      CEntry.contents, hab, hac, hbc, Ne.symm hab, Ne.symm hac, Ne.symm hbc,
      eq_self_iff_true, if_true, ite_true, if_false, ite_false,
      List.cons_append, List.nil_append, List.toFinset_cons, List.toFinset_nil,
      Finset.empty_union, Finset.union_empty, Finset.union_eq_empty,
      Finset.insert_ne_empty, ne_eq, not_true, not_false_iff, false_or, or_false,
      false_and, and_false, or_self, not_true_eq_false]
  have ha3 : getDepends
      ⟨[], [(a, ⟨[b], [], "", []⟩), (b, ⟨[c], [], "", []⟩), (c, ⟨[a], [], "", []⟩)]⟩
      3 b true
      ⟨[(a, ⟨[b], [], "", []⟩)], [(a, .pending ∅)], []⟩ =
      some (.ok (insert a ∅ ∪ insert c ∅),
        ⟨[(a, ⟨[b], [], "", []⟩), (b, ⟨[c], [], "", []⟩), (c, ⟨[a], [], "", []⟩)],
          [(a, .pending ∅), (b, .done (insert a ∅ ∪ insert c ∅)),
            (c, .done (insert a ∅))], []⟩) := by
    rw [show (3 : Nat) = 2 + 1 from rfl, getDepends_succ]
    simp only [ha2, aget, aset, getManifest, MMState.withDep, depLoop, cacheUnion,
      CEntry.contents, hab, hac, hbc, Ne.symm hab, Ne.symm hac, Ne.symm hbc,
      eq_self_iff_true, if_true, ite_true, if_false, ite_false,
      List.cons_append, List.nil_append, List.toFinset_cons, List.toFinset_nil,
      Finset.empty_union, Finset.union_empty, Finset.union_eq_empty,
      Finset.insert_ne_empty, ne_eq, not_true, not_false_iff, false_or, or_false,
      false_and, and_false, or_self, not_true_eq_false]
  have ha4 : getDepends
      ⟨[], [(a, ⟨[b], [], "", []⟩), (b, ⟨[c], [], "", []⟩), (c, ⟨[a], [], "", []⟩)]⟩
      4 a true ⟨[], [], []⟩ =
      some (.ok ((insert a ∅ ∪ insert c ∅) ∪ insert b ∅),
        ⟨[(a, ⟨[b], [], "", []⟩), (b, ⟨[c], [], "", []⟩), (c, ⟨[a], [], "", []⟩)],
          [(a, .done ((insert a ∅ ∪ insert c ∅) ∪ insert b ∅)),
            (b, .done (insert a ∅ ∪ insert c ∅)), (c, .done (insert a ∅))],
          []⟩) := by
    rw [show (4 : Nat) = 3 + 1 from rfl, getDepends_succ]
    simp only [ha3, aget, aset, getManifest, MMState.withDep, depLoop, cacheUnion,
      CEntry.contents, hab, hac, hbc, Ne.symm hab, Ne.symm hac, Ne.symm hbc,
      eq_self_iff_true, if_true, ite_true, if_false, ite_false,
      List.cons_append, List.nil_append, List.toFinset_cons, List.toFinset_nil,
      Finset.empty_union, Finset.union_empty, Finset.union_eq_empty,
      Finset.insert_ne_empty, ne_eq, not_true, not_false_iff, false_or, or_false,
      false_and, and_false, or_self, not_true_eq_false]
  have hb1 : getDepends
      ⟨[], [(a, ⟨[b], [], "", []⟩), (b, ⟨[c], [], "", []⟩), (c, ⟨[a], [], "", []⟩)]⟩
      1 b true
      ⟨[(b, ⟨[c], [], "", []⟩), (c, ⟨[a], [], "", []⟩), (a, ⟨[b], [], "", []⟩)],
        [(b, .pending ∅), (c, .pending ∅), (a, .pending ∅)], []⟩ =
      some (.ok ∅,
        ⟨[(b, ⟨[c], [], "", []⟩), (c, ⟨[a], [], "", []⟩), (a, ⟨[b], [], "", []⟩)],
          [(b, .pending ∅), (c, .pending ∅), (a, .pending ∅)], []⟩) := by
    rw [show (1 : Nat) = 0 + 1 from rfl, getDepends_succ]
    simp only [aget, aset, getManifest, MMState.withDep, depLoop, cacheUnion,
      CEntry.contents, hab, hac, hbc, Ne.symm hab, Ne.symm hac, Ne.symm hbc,
      eq_self_iff_true, if_true, ite_true, if_false, ite_false,
      List.cons_append, List.nil_append, List.toFinset_cons, List.toFinset_nil,
      Finset.empty_union, Finset.union_empty, Finset.union_eq_empty,
      Finset.insert_ne_empty, ne_eq, not_true, not_false_iff, false_or, or_false,
      false_and, and_false, or_self, not_true_eq_false]
  have hb2 : getDepends
      ⟨[], [(a, ⟨[b], [], "", []⟩), (b, ⟨[c], [], "", []⟩), (c, ⟨[a], [], "", []⟩)]⟩
      2 a true
      ⟨[(b, ⟨[c], [], "", []⟩), (c, ⟨[a], [], "", []⟩)],
        [(b, .pending ∅), (c, .pending ∅)], []⟩ =
      some (.ok (insert b ∅),
        ⟨[(b, ⟨[c], [], "", []⟩), (c, ⟨[a], [], "", []⟩), (a, ⟨[b], [], "", []⟩)],
          [(b, .pending ∅), (c, .pending ∅), (a, .done (insert b ∅))], []⟩) := by
    rw [show (2 : Nat) = 1 + 1 from rfl, getDepends_succ]
    simp only [hb1, aget, aset, getManifest, MMState.withDep, depLoop, cacheUnion,
      CEntry.contents, hab, hac, hbc, Ne.symm hab, Ne.symm hac, Ne.symm hbc,
      eq_self_iff_true, if_true, ite_true, if_false, ite_false,
      List.cons_append, List.nil_append, List.toFinset_cons, List.toFinset_nil,
      Finset.empty_union, Finset.union_empty, Finset.union_eq_empty,
      Finset.insert_ne_empty, ne_eq, not_true, not_false_iff, false_or, or_false,
      false_and, and_false, or_self, not_true_eq_false]
  have hb3 : getDepends
      ⟨[], [(a, ⟨[b], [], "", []⟩), (b, ⟨[c], [], "", []⟩), (c, ⟨[a], [], "", []⟩)]⟩
      3 c true
      ⟨[(b, ⟨[c], [], "", []⟩)], [(b, .pending ∅)], []⟩ =
      some (.ok (insert b ∅ ∪ insert a ∅),
        ⟨[(b, ⟨[c], [], "", []⟩), (c, ⟨[a], [], "", []⟩), (a, ⟨[b], [], "", []⟩)],
          [(b, .pending ∅), (c, .done (insert b ∅ ∪ insert a ∅)),
            (a, .done (insert b ∅))], []⟩) := by
    rw [show (3 : Nat) = 2 + 1 from rfl, getDepends_succ]
    simp only [hb2, aget, aset, getManifest, MMState.withDep, depLoop, cacheUnion,
      CEntry.contents, hab, hac, hbc, Ne.symm hab, Ne.symm hac, Ne.symm hbc,
      eq_self_iff_true, if_true, ite_true, if_false, ite_false,
      List.cons_append, List.nil_append, List.toFinset_cons, List.toFinset_nil,
      Finset.empty_union, Finset.union_empty, Finset.union_eq_empty,
      Finset.insert_ne_empty, ne_eq, not_true, not_false_iff, false_or, or_false,
      false_and, and_false, or_self, not_true_eq_false]
  have hb4 : getDepends
      ⟨[], [(a, ⟨[b], [], "", []⟩), (b, ⟨[c], [], "", []⟩), (c, ⟨[a], [], "", []⟩)]⟩
      4 b true ⟨[], [], []⟩ =
      some (.ok ((insert b ∅ ∪ insert a ∅) ∪ insert c ∅),
        ⟨[(b, ⟨[c], [], "", []⟩), (c, ⟨[a], [], "", []⟩), (a, ⟨[b], [], "", []⟩)],
          [(b, .done ((insert b ∅ ∪ insert a ∅) ∪ insert c ∅)),
            (c, .done (insert b ∅ ∪ insert a ∅)), (a, .done (insert b ∅))],
          []⟩) := by
    rw [show (4 : Nat) = 3 + 1 from rfl, getDepends_succ]
    simp only [hb3, aget, aset, getManifest, MMState.withDep, depLoop, cacheUnion,
      CEntry.contents, hab, hac, hbc, Ne.symm hab, Ne.symm hac, Ne.symm hbc,
      eq_self_iff_true, if_true, ite_true, if_false, ite_false,
      List.cons_append, List.nil_append, List.toFinset_cons, List.toFinset_nil,
      Finset.empty_union, Finset.union_empty, Finset.union_eq_empty,
      Finset.insert_ne_empty, ne_eq, not_true, not_false_iff, false_or, or_false,
      false_and, and_false, or_self, not_true_eq_false]
  have hc1 : getDepends
      ⟨[], [(a, ⟨[b], [], "", []⟩), (b, ⟨[c], [], "", []⟩), (c, ⟨[a], [], "", []⟩)]⟩
      1 c true
      ⟨[(c, ⟨[a], [], "", []⟩), (a, ⟨[b], [], "", []⟩), (b, ⟨[c], [], "", []⟩)],
        [(c, .pending ∅), (a, .pending ∅), (b, .pending ∅)], []⟩ =
      some (.ok ∅,
        ⟨[(c, ⟨[a], [], "", []⟩), (a, ⟨[b], [], "", []⟩), (b, ⟨[c], [], "", []⟩)],
          [(c, .pending ∅), (a, .pending ∅), (b, .pending ∅)], []⟩) := by
    rw [show (1 : Nat) = 0 + 1 from rfl, getDepends_succ]
    simp only [aget, aset, getManifest, MMState.withDep, depLoop, cacheUnion,
      CEntry.contents, hab, hac, hbc, Ne.symm hab, Ne.symm hac, Ne.symm hbc,
      eq_self_iff_true, if_true, ite_true, if_false, ite_false,
      List.cons_append, List.nil_append, List.toFinset_cons, List.toFinset_nil,
      Finset.empty_union, Finset.union_empty, Finset.union_eq_empty,
      Finset.insert_ne_empty, ne_eq, not_true, not_false_iff, false_or, or_false,
      false_and, and_false, or_self, not_true_eq_false]
  have hc2 : getDepends
      ⟨[], [(a, ⟨[b], [], "", []⟩), (b, ⟨[c], [], "", []⟩), (c, ⟨[a], [], "", []⟩)]⟩
      2 b true
      ⟨[(c, ⟨[a], [], "", []⟩), (a, ⟨[b], [], "", []⟩)],
        [(c, .pending ∅), (a, .pending ∅)], []⟩ =
      some (.ok (insert c ∅),
        ⟨[(c, ⟨[a], [], "", []⟩), (a, ⟨[b], [], "", []⟩), (b, ⟨[c], [], "", []⟩)],
          [(c, .pending ∅), (a, .pending ∅), (b, .done (insert c ∅))], []⟩) := by
    rw [show (2 : Nat) = 1 + 1 from rfl, getDepends_succ]
    simp only [hc1, aget, aset, getManifest, MMState.withDep, depLoop, cacheUnion,
      CEntry.contents, hab, hac, hbc, Ne.symm hab, Ne.symm hac, Ne.symm hbc,
      eq_self_iff_true, if_true, ite_true, if_false, ite_false,
      List.cons_append, List.nil_append, List.toFinset_cons, List.toFinset_nil,
      Finset.empty_union, Finset.union_empty, Finset.union_eq_empty,
      Finset.insert_ne_empty, ne_eq, not_true, not_false_iff, false_or, or_false,
      false_and, and_false, or_self, not_true_eq_false]
  have hc3 : getDepends
      ⟨[], [(a, ⟨[b], [], "", []⟩), (b, ⟨[c], [], "", []⟩), (c, ⟨[a], [], "", []⟩)]⟩
      3 a true
      ⟨[(c, ⟨[a], [], "", []⟩)], [(c, .pending ∅)], []⟩ =
      some (.ok (insert c ∅ ∪ insert b ∅),
        ⟨[(c, ⟨[a], [], "", []⟩), (a, ⟨[b], [], "", []⟩), (b, ⟨[c], [], "", []⟩)],
          [(c, .pending ∅), (a, .done (insert c ∅ ∪ insert b ∅)),
            (b, .done (insert c ∅))], []⟩) := by
    rw [show (3 : Nat) = 2 + 1 from rfl, getDepends_succ]
    simp only [hc2, aget, aset, getManifest, MMState.withDep, depLoop, cacheUnion,
      CEntry.contents, hab, hac, hbc, Ne.symm hab, Ne.symm hac, Ne.symm hbc,
      eq_self_iff_true, if_true, ite_true, if_false, ite_false,
      List.cons_append, List.nil_append, List.toFinset_cons, List.toFinset_nil,
      Finset.empty_union, Finset.union_empty, Finset.union_eq_empty,
      Finset.insert_ne_empty, ne_eq, not_true, not_false_iff, false_or, or_false,
      false_and, and_false, or_self, not_true_eq_false]
  have hc4 : getDepends
      ⟨[], [(a, ⟨[b], [], "", []⟩), (b, ⟨[c], [], "", []⟩), (c, ⟨[a], [], "", []⟩)]⟩
      4 c true ⟨[], [], []⟩ =
      some (.ok ((insert c ∅ ∪ insert b ∅) ∪ insert a ∅),
        ⟨[(c, ⟨[a], [], "", []⟩), (a, ⟨[b], [], "", []⟩), (b, ⟨[c], [], "", []⟩)],
          [(c, .done ((insert c ∅ ∪ insert b ∅) ∪ insert a ∅)),
            (a, .done (insert c ∅ ∪ insert b ∅)), (b, .done (insert c ∅))],
          []⟩) := by
    rw [show (4 : Nat) = 3 + 1 from rfl, getDepends_succ]
    simp only [hc3, aget, aset, getManifest, MMState.withDep, depLoop, cacheUnion,
      CEntry.contents, hab, hac, hbc, Ne.symm hab, Ne.symm hac, Ne.symm hbc,
      eq_self_iff_true, if_true, ite_true, if_false, ite_false,
      List.cons_append, List.nil_append, List.toFinset_cons, List.toFinset_nil,
      Finset.empty_union, Finset.union_empty, Finset.union_eq_empty,
      Finset.insert_ne_empty, ne_eq, not_true, not_false_iff, false_or, or_false,
      false_and, and_false, or_self, not_true_eq_false]
  refine ⟨⟨(insert a ∅ ∪ insert c ∅) ∪ insert b ∅, ?_, ?_, ?_⟩,
    ⟨(insert b ∅ ∪ insert a ∅) ∪ insert c ∅, ?_, ?_, ?_⟩,
    ⟨(insert c ∅ ∪ insert b ∅) ∪ insert a ∅, ?_, ?_, ?_⟩⟩
  · rw [show cyc a b c =
        (⟨[], [(a, ⟨[b], [], "", []⟩), (b, ⟨[c], [], "", []⟩),
          (c, ⟨[a], [], "", []⟩)]⟩ : MM) from rfl,
      show st0 = (⟨[], [], []⟩ : MMState) from rfl, ha4]
    exact rfl
  · simp
  · simp
  · rw [show cyc a b c =
        (⟨[], [(a, ⟨[b], [], "", []⟩), (b, ⟨[c], [], "", []⟩),
          (c, ⟨[a], [], "", []⟩)]⟩ : MM) from rfl,
      show st0 = (⟨[], [], []⟩ : MMState) from rfl, hb4]
    exact rfl
  · simp
  · simp
  · rw [show cyc a b c =
        (⟨[], [(a, ⟨[b], [], "", []⟩), (b, ⟨[c], [], "", []⟩),
          (c, ⟨[a], [], "", []⟩)]⟩ : MM) from rfl,
      show st0 = (⟨[], [], []⟩ : MMState) from rfl, hc4]
    exact rfl
  · simp
  · simp

/-- Witness for `getDepends_cycle_terminates` at concrete distinct names. -/
theorem getDepends_cycle_terminates_witness :
    ("pa" : String) ≠ "pb" ∧ ("pa" : String) ≠ "pc" ∧ ("pb" : String) ≠ "pc" ∧
    ((∃ s, okSet (getDepends (cyc "pa" "pb" "pc") 4 "pa" true st0) = some s ∧
        "pb" ∈ s ∧ "pc" ∈ s) ∧
      (∃ s, okSet (getDepends (cyc "pa" "pb" "pc") 4 "pb" true st0) = some s ∧
        "pa" ∈ s ∧ "pc" ∈ s) ∧
      (∃ s, okSet (getDepends (cyc "pa" "pb" "pc") 4 "pc" true st0) = some s ∧
        "pa" ∈ s ∧ "pb" ∈ s)) :=
  ⟨by decide, by decide, by decide,
    getDepends_cycle_terminates (by decide) (by decide) (by decide)⟩

/-! ## Invariant preservation -/

theorem invM_of_eq {mm : MM} {st st' : MMState}
    (h : st'.manifests = st.manifests) (hc : InvManifests mm st) :
    InvManifests mm st' := by
  intro n m hn
  rw [h] at hn
  exact hc n m hn

theorem invD_of_eq {mm : MM} {st st' : MMState}
    (h : st'.depends_cache = st.depends_cache) (hc : InvDepCache mm st) :
    InvDepCache mm st' := by
  intro n sq hn
  rw [h] at hn
  exact hc n sq hn

theorem aget_mem_pair {β : Type} {l : List (String × β)} {k : String} {v : β}
    (h : aget l k = some v) : (k, v) ∈ l := by
  induction l with
  | nil => simp [aget] at h
  | cons p rest ih =>
    obtain ⟨k₀, v₀⟩ := p
    by_cases h0 : k₀ = k
    · subst h0
      simp [aget] at h
      simp [h]
    · simp [aget, h0] at h
      simp [ih h]

/-- Storing a pending placeholder never breaks the completed-entry
invariant. -/
theorem invD_aset_pending {mm : MM} {st : MMState} {k : String}
    {x : Finset String} (hc : InvDepCache mm st) :
    InvDepCache mm (st.withDep (aset st.depends_cache k (.pending x))) := by
  intro n sq hn
  simp only [MMState.withDep] at hn
  by_cases hk : n = k
  · subst hk
    rw [aget_aset_self] at hn
    exact absurd hn (by simp)
  · rw [aget_aset_ne _ _ _ _ hk] at hn
    exact hc n sq hn

/-- Storing a completed entry that contains the direct dependencies of
its name keeps the completed-entry invariant. -/
theorem invD_aset_done {mm : MM} {st : MMState} {k : String} {s : Finset String}
    (hc : InvDepCache mm st)
    (hk : ∀ mq, aget mm.env k = some mq → ∀ d ∈ mq.depends, d ∈ s) :
    InvDepCache mm (st.withDep (aset st.depends_cache k (.done s))) := by
  intro n sq hn
  simp only [MMState.withDep] at hn
  by_cases hnk : n = k
  · subst hnk
    rw [aget_aset_self] at hn
    injection hn with hn
    injection hn with hn
    intro mq hmq
    rw [← hn]
    exact hk mq hmq
  · rw [aget_aset_ne _ _ _ _ hnk] at hn
    exact hc n sq hn

theorem cacheUnion_manifests (st : MMState) (k : String) (d : Finset String) :
    (cacheUnion st k d).manifests = st.manifests := by
  unfold cacheUnion
  split <;> simp [MMState.withDep]

theorem cacheUnion_inv {mm : MM} {st : MMState} {k : String} {d : Finset String}
    (hInv : Inv mm st) : Inv mm (cacheUnion st k d) := by
  refine ⟨invM_of_eq (cacheUnion_manifests st k d) hInv.1, ?_⟩
  unfold cacheUnion
  split
  next sq hsq =>
    intro n s hn
    simp only [MMState.withDep] at hn
    by_cases hnk : n = k
    · subst hnk
      rw [aget_aset_self] at hn
      exact absurd hn (by simp)
    · rw [aget_aset_ne _ _ _ _ hnk] at hn
      exact hInv.2 n s hn
  next hother => exact hInv.2

theorem cacheUnion_pending {st : MMState} {k : String} {d : Finset String}
    {n : String} (h : IsPending (cacheUnion st k d) n) : IsPending st n := by
  obtain ⟨s, hs⟩ := h
  unfold cacheUnion at hs
  revert hs
  split
  next sq hsq =>
    intro hs
    simp only [MMState.withDep] at hs
    by_cases hnk : n = k
    · subst hnk
      exact ⟨sq, hsq⟩
    · rw [aget_aset_ne _ _ _ _ hnk] at hs
      exact ⟨s, hs⟩
  next hother =>
    intro hs
    exact ⟨s, hs⟩

/-- Every completed `get_depends` call preserves the state invariant and
creates no new pending placeholders: each frame it opens is either
finalized to a completed entry or deleted before the call returns. -/
theorem getDepends_preserves (mm : MM) : ∀ fuel : Nat,
    ∀ (name : String) (implicit : Bool) (st : MMState)
      (out : Except RNF (Finset String) × MMState),
      getDepends mm fuel name implicit st = some out → Inv mm st →
      Inv mm out.2 ∧ (∀ n, IsPending out.2 n → IsPending st n) := by
  intro fuel
  induction fuel with
  | zero =>
    intro name implicit st out h _
    simp [getDepends] at h
  | succ fuel ih =>
    intro name implicit st out h hInv
    cases implicit with
    | false =>
      simp only [getDepends] at h
      split at h
      next mq st1 hgm =>
        injection h with h
        rw [← h]
        have hm : st1 = (getManifest mm name st).2 := by rw [hgm]
        refine ⟨⟨?_, ?_⟩, ?_⟩
        · exact invM_of_eq (by rw [hm]) (getManifest_inv hInv.1)
        · exact invD_of_eq (by rw [hm]; exact getManifest_dep_cache mm name st)
            hInv.2
        · intro n hp
          obtain ⟨s, hs⟩ := hp
          refine ⟨s, ?_⟩
          rw [show st.depends_cache = st1.depends_cache from by
            rw [hm]; exact (getManifest_dep_cache mm name st).symm]
          exact hs
      next e st1 hgm =>
        injection h with h
        rw [← h]
        have hm : st1 = (getManifest mm name st).2 := by rw [hgm]
        refine ⟨⟨?_, ?_⟩, ?_⟩
        · exact invM_of_eq (by rw [hm]) (getManifest_inv hInv.1)
        · exact invD_of_eq (by rw [hm]; exact getManifest_dep_cache mm name st)
            hInv.2
        · intro n hp
          obtain ⟨s, hs⟩ := hp
          refine ⟨s, ?_⟩
          rw [show st.depends_cache = st1.depends_cache from by
            rw [hm]; exact (getManifest_dep_cache mm name st).symm]
          exact hs
    | true =>
      have loop : ∀ (names : List String) (sAcc unavail : Finset String)
          (stx : MMState) (outx : Finset String × Finset String × MMState),
          depLoop (fun p s => getDepends mm fuel p true s) name names sAcc
              unavail stx = some outx → Inv mm stx →
          Inv mm outx.2.2 ∧ (∀ n, IsPending outx.2.2 n → IsPending stx n) := by
        intro names
        induction names with
        | nil =>
          intro sAcc unavail stx outx hx hInvx
          unfold depLoop at hx
          injection hx with hx
          rw [← hx]
          exact ⟨hInvx, fun n hp => hp⟩
        | cons p rest ihl =>
          intro sAcc unavail stx outx hx hInvx
          unfold depLoop at hx
          split at hx
          · exact absurd hx (by simp)
          next deps st' hgd =>
            obtain ⟨hInv', hpend'⟩ := ih p true stx (.ok deps, st') hgd hInvx
            obtain ⟨hInv2, hpend2⟩ := ihl _ _ _ _ hx (cacheUnion_inv hInv')
            exact ⟨hInv2, fun n hp => hpend' n (cacheUnion_pending (hpend2 n hp))⟩
          next e st' hgd =>
            obtain ⟨hInv', hpend'⟩ := ih p true stx (.error e, st') hgd hInvx
            obtain ⟨hInv2, hpend2⟩ := ihl _ _ _ _ hx (cacheUnion_inv hInv')
            exact ⟨hInv2, fun n hp => hpend' n (cacheUnion_pending (hpend2 n hp))⟩
      rcases getDepends_frame h with
        ⟨entry, hc, hout⟩ | ⟨hc, hmans, henv, hout⟩ |
        ⟨m, st1, sAcc, unavail, st2, hc, hgm, hdl, hout⟩
      · rw [hout]
        exact ⟨hInv, fun n hp => hp⟩
      · rw [hout]
        exact ⟨hInv, fun n hp => hp⟩
      · -- the completed-frame case: out.2 is st3 in both branches of the ite
        have hsnd : out.2 = st2.withDep (aset st2.depends_cache name
            (.done (sAcc ∪ m.depends.toFinset))) := by
          by_cases hcond : unavail ≠ ∅ ∨ sAcc ∪ m.depends.toFinset = ∅
          · rw [if_pos hcond] at hout
            rw [hout]
          · rw [if_neg hcond] at hout
            rw [hout]
        -- invariants along the frame
        have hInvP : Inv mm (st.withDep (aset st.depends_cache name
            (.pending ∅))) := by
          refine ⟨invM_of_eq (by simp [MMState.withDep]) hInv.1, ?_⟩
          exact invD_aset_pending hInv.2
        have henvm : aget mm.env name = some m := getManifest_ok_env hgm hInvP.1
        have hInv1 : Inv mm st1 := by
          have hm : st1 = (getManifest mm name (st.withDep (aset st.depends_cache
              name (.pending ∅)))).2 := by rw [hgm]
          refine ⟨invM_of_eq (by rw [hm]) (getManifest_inv hInvP.1), ?_⟩
          exact invD_of_eq
            (by rw [hm]; exact getManifest_dep_cache mm name _) hInvP.2
        obtain ⟨hInv2, hpend2⟩ := loop m.depends ∅ ∅ st1 (sAcc, unavail, st2)
          hdl hInv1
        rw [hsnd]
        constructor
        · refine ⟨invM_of_eq (by simp [MMState.withDep]) hInv2.1, ?_⟩
          refine invD_aset_done hInv2.2 ?_
          intro mq hmq d hd
          rw [henvm] at hmq
          injection hmq with hmq
          rw [← hmq] at hd
          simp [List.mem_toFinset.mpr hd]
        · intro n hp
          obtain ⟨s, hs⟩ := hp
          simp only [MMState.withDep] at hs
          by_cases hnk : n = name
          · subst hnk
            rw [aget_aset_self] at hs
            exact absurd hs (by simp)
          · rw [aget_aset_ne _ _ _ _ hnk] at hs
            have hp1 : IsPending st1 n := hpend2 n ⟨s, hs⟩
            obtain ⟨s1, hs1⟩ := hp1
            have hdc1 : st1.depends_cache =
                aset st.depends_cache name (.pending ∅) := by
              have hx := getManifest_dep_cache mm name
                (st.withDep (aset st.depends_cache name (.pending ∅)))
              rw [hgm] at hx
              simpa [MMState.withDep] using hx
            rw [hdc1] at hs1
            rw [aget_aset_ne _ _ _ _ hnk] at hs1
            exact ⟨s1, hs1⟩

/-- Under a closed resource world, no error that `get_depends` raises on
an indexed name carries unavailable dependencies: the only raises left
are the raise-on-empty-closure ones, whose `deps_unavailable` is empty. -/
theorem getDepends_closed_unavail {mm : MM} (hC : ClosedEnv mm) :
    ∀ fuel : Nat, ∀ (name : String) (st : MMState) (e : RNF) (st' : MMState),
      (aget mm.env name).isSome = true → Inv mm st →
      getDepends mm fuel name true st = some (.error e, st') →
      e.deps_unavailable = ∅ := by
  intro fuel
  induction fuel with
  | zero =>
    intro name st e st' _ _ h
    simp [getDepends] at h
  | succ fuel ih =>
    intro name st e st' hsome hInv h
    have loop : ∀ (names : List String) (sAcc unavail : Finset String)
        (stx : MMState) (outx : Finset String × Finset String × MMState),
        (∀ p ∈ names, (aget mm.env p).isSome = true) → Inv mm stx →
        depLoop (fun p s => getDepends mm fuel p true s) name names sAcc
            unavail stx = some outx →
        outx.2.1 = unavail := by
      intro names
      induction names with
      | nil =>
        intro sAcc unavail stx outx _ _ hx
        unfold depLoop at hx
        injection hx with hx
        rw [← hx]
      | cons p rest ihl =>
        intro sAcc unavail stx outx hidx hInvx hx
        unfold depLoop at hx
        split at hx
        · exact absurd hx (by simp)
        next deps st'' hgd =>
          have hInv'' := (getDepends_preserves mm fuel p true stx (.ok deps, st'')
            hgd hInvx).1
          exact ihl _ _ _ _ (fun q hq => hidx q (List.mem_cons_of_mem p hq))
            (cacheUnion_inv hInv'') hx
        next e' st'' hgd =>
          have he' : e'.deps_unavailable = ∅ :=
            ih p stx e' st'' (hidx p (List.mem_cons_self p rest)) hInvx hgd
          have hInv'' := (getDepends_preserves mm fuel p true stx
            (.error e', st'') hgd hInvx).1
          have := ihl _ (unavail ∪ e'.deps_unavailable) _ _
            (fun q hq => hidx q (List.mem_cons_of_mem p hq))
            (cacheUnion_inv hInv'') hx
          rw [this, he', Finset.union_empty]
    rcases getDepends_frame h with
      ⟨entry, hc, hout⟩ | ⟨hc, hmans, henv, hout⟩ |
      ⟨m, st1, sAcc, unavail, st2, hc, hgm, hdl, hout⟩
    · simp at hout
    · rw [henv] at hsome
      simp at hsome
    · have hInvP : Inv mm (st.withDep (aset st.depends_cache name
          (.pending ∅))) := by
        refine ⟨invM_of_eq (by simp [MMState.withDep]) hInv.1, ?_⟩
        exact invD_aset_pending hInv.2
      have henvm : aget mm.env name = some m := getManifest_ok_env hgm hInvP.1
      have hInv1 : Inv mm st1 := by
        have hm : st1 = (getManifest mm name (st.withDep (aset st.depends_cache
            name (.pending ∅)))).2 := by rw [hgm]
        refine ⟨invM_of_eq (by rw [hm]) (getManifest_inv hInvP.1), ?_⟩
        exact invD_of_eq
          (by rw [hm]; exact getManifest_dep_cache mm name _) hInvP.2
      have hclosed : ∀ p ∈ m.depends, (aget mm.env p).isSome = true :=
        hC (name, m) (aget_mem_pair henvm)
      have hun : unavail = ∅ := loop m.depends ∅ ∅ st1 (sAcc, unavail, st2)
        hclosed hInv1 hdl
      by_cases hcond : unavail ≠ ∅ ∨ sAcc ∪ m.depends.toFinset = ∅
      · rw [if_pos hcond] at hout
        injection hout with he hst
        injection he with he
        rw [he, hun]
      · rw [if_neg hcond] at hout
        simp at hout

/-- A successful implicit `get_depends` on an indexed name, from a state
satisfying the invariant in which the name is not mid-computation,
returns a set containing all the name's direct dependencies. -/
theorem getDepends_ok_superset {mm : MM} {fuel : Nat} {name : String}
    {st : MMState} {l : Finset String} {st' : MMState} {m : Manifest}
    (h : getDepends mm fuel name true st = some (.ok l, st'))
    (hInv : Inv mm st) (hNP : ¬ IsPending st name)
    (henv : aget mm.env name = some m) :
    ∀ d ∈ m.depends, d ∈ l := by
  cases fuel with
  | zero => simp [getDepends] at h
  | succ fuel =>
    rcases getDepends_frame h with
      ⟨entry, hc, hout⟩ | ⟨hc, hmans, henv', hout⟩ |
      ⟨m', st1, sAcc, unavail, st2, hc, hgm, hdl, hout⟩
    · rcases entry with s | s
      · exact absurd ⟨s, hc⟩ hNP
      · injection hout with hfst hsnd
        injection hfst with hfst
        intro d hd
        rw [hfst]
        exact hInv.2 name s hc m henv d hd
    · rw [henv'] at henv
      exact absurd henv (by simp)
    · have hInvP : Inv mm (st.withDep (aset st.depends_cache name
          (.pending ∅))) := by
        refine ⟨invM_of_eq (by simp [MMState.withDep]) hInv.1, ?_⟩
        exact invD_aset_pending hInv.2
      have henvm : aget mm.env name = some m' := getManifest_ok_env hgm hInvP.1
      rw [henv] at henvm
      injection henvm with henvm
      by_cases hcond : unavail ≠ ∅ ∨ sAcc ∪ m'.depends.toFinset = ∅
      · rw [if_pos hcond] at hout
        simp at hout
      · rw [if_neg hcond] at hout
        injection hout with hfst hsnd
        injection hfst with hfst
        intro d hd
        rw [hfst]
        rw [henvm] at hd
        simp [List.mem_toFinset.mpr hd]

/-- The error counterpart of `getDepends_ok_superset`: when the call on
an indexed name raises, the carried partial closure still contains all
direct dependencies. -/
theorem getDepends_error_superset {mm : MM} {fuel : Nat} {name : String}
    {st : MMState} {e : RNF} {st' : MMState} {m : Manifest}
    (h : getDepends mm fuel name true st = some (.error e, st'))
    (hInv : Inv mm st) (henv : aget mm.env name = some m) :
    ∀ d ∈ m.depends, d ∈ e.deps_sofar := by
  cases fuel with
  | zero => simp [getDepends] at h
  | succ fuel =>
    rcases getDepends_frame h with
      ⟨entry, hc, hout⟩ | ⟨hc, hmans, henv', hout⟩ |
      ⟨m', st1, sAcc, unavail, st2, hc, hgm, hdl, hout⟩
    · simp at hout
    · rw [henv'] at henv
      exact absurd henv (by simp)
    · have hInvP : Inv mm (st.withDep (aset st.depends_cache name
          (.pending ∅))) := by
        refine ⟨invM_of_eq (by simp [MMState.withDep]) hInv.1, ?_⟩
        exact invD_aset_pending hInv.2
      have henvm : aget mm.env name = some m' := getManifest_ok_env hgm hInvP.1
      rw [henv] at henvm
      injection henvm with henvm
      by_cases hcond : unavail ≠ ∅ ∨ sAcc ∪ m'.depends.toFinset = ∅
      · rw [if_pos hcond] at hout
        injection hout with hfst hsnd
        injection hfst with hfst
        intro d hd
        rw [hfst]
        rw [henvm] at hd
        simp [List.mem_toFinset.mpr hd]
      · rw [if_neg hcond] at hout
        simp at hout

/-! ## Claim C5 -/

/-- Claim C5: for every resource whose manifest is resolvable, the set of
names returned by `get_depends(name, implicit=false)` is a subset of the
set returned by `get_depends(name, implicit=true)` (both calls made on
the same manager state, one satisfying the cache invariants that hold
between top-level calls). -/
theorem getDepends_direct_subset {mm : MM} {f1 f2 : Nat} {name : String}
    {st st1 st2 : MMState} {dl l : Finset String}
    (hInv : Inv mm st) (hNP : ¬ IsPending st name)
    (hd : getDepends mm f1 name false st = some (.ok dl, st1))
    (hi : getDepends mm f2 name true st = some (.ok l, st2)) :
    dl ⊆ l := by
  cases f1 with
  | zero => simp [getDepends] at hd
  | succ f1 =>
    simp only [getDepends] at hd
    split at hd
    next mq st' hgm =>
      injection hd with hd
      injection hd with hda hdb
      injection hda with hda
      have henv : aget mm.env name = some mq := getManifest_ok_env hgm hInv.1
      intro d hdmem
      rw [← hda] at hdmem
      exact getDepends_ok_superset hi hInv hNP henv d (List.mem_toFinset.mp hdmem)
    next e st' hgm => exact absurd hd (by simp)

/-- Witness for `getDepends_direct_subset` on a two-resource world. -/
theorem getDepends_direct_subset_witness :
    (getDepends ⟨[], [("p", ⟨["q"], [], "", []⟩), ("q", ⟨[], [], "", []⟩)]⟩ 2 "p"
        false st0 =
      some (.ok (insert "q" ∅),
        ⟨[("p", ⟨["q"], [], "", []⟩)], [], []⟩)) ∧
    (getDepends ⟨[], [("p", ⟨["q"], [], "", []⟩), ("q", ⟨[], [], "", []⟩)]⟩ 3 "p"
        true st0 =
      some (.ok (insert "q" ∅),
        ⟨[("p", ⟨["q"], [], "", []⟩), ("q", ⟨[], [], "", []⟩)],
          [("p", .done (insert "q" ∅)), ("q", .done ∅)], []⟩)) ∧
    (insert "q" ∅ : Finset String) ⊆ insert "q" ∅ :=
  ⟨by decide, by decide,
    @getDepends_direct_subset
      ⟨[], [("p", ⟨["q"], [], "", []⟩), ("q", ⟨[], [], "", []⟩)]⟩ 2 3 "p" st0
      ⟨[("p", ⟨["q"], [], "", []⟩)], [], []⟩
      ⟨[("p", ⟨["q"], [], "", []⟩), ("q", ⟨[], [], "", []⟩)],
        [("p", .done (insert "q" ∅)), ("q", .done ∅)], []⟩
      (insert "q" ∅) (insert "q" ∅)
      ⟨fun n m hq => by simp [st0, aget] at hq,
        fun n s hq => by simp [st0, aget] at hq⟩
      (fun hp => by obtain ⟨s, hs⟩ := hp; simp [st0, aget] at hs)
      (by decide) (by decide)⟩

/-! ## Claim C6 -/

/-- A raised implicit `get_depends` error on an indexed name satisfies
the raise condition of the source
(`0 < len(depends_unavailable) or 0 == len(s)`). -/
theorem getDepends_error_cond {mm : MM} {fuel : Nat} {name : String}
    {st : MMState} {e : RNF} {st' : MMState} {m : Manifest}
    (h : getDepends mm fuel name true st = some (.error e, st'))
    (henv : aget mm.env name = some m) :
    e.deps_unavailable ≠ ∅ ∨ e.deps_sofar = ∅ := by
  cases fuel with
  | zero => simp [getDepends] at h
  | succ fuel =>
    rcases getDepends_frame h with
      ⟨entry, hc, hout⟩ | ⟨hc, hmans, henv', hout⟩ |
      ⟨m', st1, sAcc, unavail, st2, hc, hgm, hdl, hout⟩
    · simp at hout
    · rw [henv'] at henv
      exact absurd henv (by simp)
    · by_cases hcond : unavail ≠ ∅ ∨ sAcc ∪ m'.depends.toFinset = ∅
      · rw [if_pos hcond] at hout
        injection hout with he hst
        injection he with he
        rw [he]
        exact hcond
      · rw [if_neg hcond] at hout
        simp at hout

theorem dependsOnLoop_mem_of_direct {mm : MM} {fuel : Nat} {A B : String}
    {mA : Manifest} (hC : ClosedEnv mm)
    (henvA : aget mm.env A = some mA) (hdir : B ∈ mA.depends) (hAB : A ≠ B) :
    ∀ (L acc : List String) (st : MMState) (out : List String × MMState),
      dependsOnLoop mm fuel B true L acc st = some out →
      Inv mm st → NoPending st → (A ∈ L ∨ A ∈ acc) → A ∈ out.1 := by
  intro L
  induction L with
  | nil =>
    intro acc st out h hInv hNP hA
    unfold dependsOnLoop at h
    injection h with h
    rw [← h]
    rcases hA with hA | hA
    · exact absurd hA (List.not_mem_nil A)
    · exact hA
  | cons r rest ih =>
    intro acc st out h hInv hNP hA
    unfold dependsOnLoop at h
    by_cases hr : r = B
    · rw [if_pos hr] at h
      refine ih _ _ _ h hInv hNP ?_
      rcases hA with hA | hA
      · rcases List.mem_cons.mp hA with h1 | h2
        · exact absurd (h1.trans hr) hAB
        · exact Or.inl h2
      · exact Or.inr hA
    · rw [if_neg hr] at h
      simp only [] at h
      split at h
      · exact absurd h (by simp)
      next deps st' hgd =>
        have hpres := getDepends_preserves mm fuel r true st (.ok deps, st')
          hgd hInv
        have hNP' : NoPending st' := fun n s hs => by
          obtain ⟨s0, hs0⟩ := hpres.2 n ⟨s, hs⟩
          exact hNP n s0 hs0
        by_cases hAr : A = r
        · subst hAr
          have hmem : B ∈ deps :=
            getDepends_ok_superset hgd hInv
              (fun hp => by obtain ⟨s, hs⟩ := hp; exact hNP A s hs)
              henvA B hdir
          rw [if_pos hmem] at h
          refine ih _ _ _ h hpres.1 hNP' (Or.inr ?_)
          simp
        · rcases hA with hA | hA
          · rcases List.mem_cons.mp hA with h1 | h2
            · exact absurd h1 hAr
            · exact ih _ _ _ h hpres.1 hNP' (Or.inl h2)
          · refine ih _ _ _ h hpres.1 hNP' (Or.inr ?_)
            by_cases hmem : B ∈ deps
            · rw [if_pos hmem]
              exact List.mem_append_left _ hA
            · rw [if_neg hmem]
              exact hA
      next e st' hgd =>
        have hpres := getDepends_preserves mm fuel r true st (.error e, st')
          hgd hInv
        have hNP' : NoPending st' := fun n s hs => by
          obtain ⟨s0, hs0⟩ := hpres.2 n ⟨s, hs⟩
          exact hNP n s0 hs0
        by_cases hAr : A = r
        · subst hAr
          have hcond := getDepends_error_cond hgd henvA
          have hun : e.deps_unavailable = ∅ :=
            getDepends_closed_unavail hC fuel A st e st'
              (by rw [henvA]; rfl) hInv hgd
          have hsofar : B ∈ e.deps_sofar :=
            getDepends_error_superset hgd hInv henvA B hdir
          rcases hcond with hcu | hcs
          · exact absurd hun hcu
          · rw [hcs] at hsofar
            simp at hsofar
        · rcases hA with hA | hA
          · rcases List.mem_cons.mp hA with h1 | h2
            · exact absurd h1 hAr
            · exact ih _ _ _ h hpres.1 hNP' (Or.inl h2)
          · exact ih _ _ _ h hpres.1 hNP' (Or.inr hA)

/-- Claim C6 (counterexample): in the closed world `mmWZY` — every name
indexed, every manifest parsing — `Z` depends transitively on `Y`
(`Z → W → Y`), yet `get_depends_on("Y", implicit=true)` returns only
`["W"]`: when the loop reaches `Z`, the dependency cache already holds
the incomplete closure `{W}` computed for `Z` inside `W`'s earlier
frame (the cycle guard hid `W`'s still-empty placeholder), so `Z` is
not reported. -/
theorem getDependsOn_counterexample :
    Relation.TransGen (DirectDep mmWZY) "Z" "Y" ∧
    (getDependsOn mmWZY 6 "Y" true st0).map Prod.fst = some ["W"] ∧
    "Z" ∉ (["W"] : List String) := by
  refine ⟨?_, by decide, by decide⟩
  exact @Relation.TransGen.head String (DirectDep mmWZY) "Z" "W" "Y"
    ⟨⟨["W"], [], "", []⟩, by decide, by decide⟩
    (@Relation.TransGen.single String (DirectDep mmWZY) "W" "Y"
      ⟨⟨["Z", "Y"], [], "", []⟩, by decide, by decide⟩)

/-- Claim C6 (amended): in a closed resource world (every dependency name
of every indexed manifest is itself indexed), if `A` depends *directly*
on `B` (its manifest lists `B`) and `A ≠ B`, then `A` is a member of the
list returned by `get_depends_on(B, implicit=true)` (computed from any
state satisfying the between-calls cache invariants).  The original
transitive claim fails (`getDependsOn_counterexample`): the memoized
cycle-tolerant closure can cache sets missing transitive dependencies. -/
theorem getDependsOn_mem_of_direct {mm : MM} {fuel : Nat} {A B : String}
    {mA : Manifest} {st : MMState} {out : List String × MMState}
    (hC : ClosedEnv mm) (hInv : Inv mm st) (hNP : NoPending st)
    (henvA : aget mm.env A = some mA) (hdir : B ∈ mA.depends) (hAB : A ≠ B)
    (h : getDependsOn mm fuel B true st = some out) : A ∈ out.1 :=
  dependsOnLoop_mem_of_direct hC henvA hdir hAB _ [] st out h hInv hNP
    (Or.inl (aget_some_mem_keys henvA))

/-- Witness for `getDependsOn_mem_of_direct`: `W` directly depends on `Z`
in `mmWZY` and is indeed reported by `get_depends_on("Z")`. -/
theorem getDependsOn_mem_of_direct_witness :
    ClosedEnv mmWZY ∧
    aget mmWZY.env "W" = some (⟨["Z", "Y"], [], "", []⟩ : Manifest) ∧
    ("Z" : String) ∈ (⟨["Z", "Y"], [], "", []⟩ : Manifest).depends ∧
    ("W" : String) ≠ "Z" ∧
    getDependsOn mmWZY 6 "Z" true st0 =
      some ((getDependsOn mmWZY 6 "Z" true st0).getD ([], st0)) ∧
    "W" ∈ ((getDependsOn mmWZY 6 "Z" true st0).getD ([], st0)).1 :=
  ⟨by unfold ClosedEnv; decide, by decide, by decide, by decide, by decide,
    @getDependsOn_mem_of_direct mmWZY 6 "W" "Z" ⟨["Z", "Y"], [], "", []⟩ st0
      ((getDependsOn mmWZY 6 "Z" true st0).getD ([], st0))
      (by unfold ClosedEnv; decide)
      ⟨fun n m hq => by simp [st0, aget] at hq,
        fun n s hq => by simp [st0, aget] at hq⟩
      (fun n s hs => by simp [st0, aget] at hs)
      (by decide) (by decide) (by decide) (by decide)⟩

/-- Witness for `getDepends_error_caches` (claim C4) at a concrete input:
`al` is indexed with the single dependency `miss`, which is not; the call
raises, caches the partial closure `{miss}`, and the second call returns
it from the cache. -/
theorem getDepends_error_caches_witness :
    (aget (⟨["/r"], [("al", ⟨["miss"], [], "", []⟩)]⟩ : MM).env "al" =
      some (⟨["miss"], [], "", []⟩ : Manifest)) ∧
    (getDepends ⟨["/r"], [("al", ⟨["miss"], [], "", []⟩)]⟩ 3 "al" true st0 =
      some (.error ⟨["/r"], insert "miss" ∅, insert "miss" ∅⟩,
        ⟨[("al", ⟨["miss"], [], "", []⟩)], [("al", .done (insert "miss" ∅))],
          []⟩)) ∧
    (aget (⟨[("al", ⟨["miss"], [], "", []⟩)],
        [("al", .done (insert "miss" ∅))], []⟩ : MMState).depends_cache "al" =
      some (.done (insert "miss" ∅)) ∧
    getDepends ⟨["/r"], [("al", ⟨["miss"], [], "", []⟩)]⟩ 1 "al" true
        ⟨[("al", ⟨["miss"], [], "", []⟩)], [("al", .done (insert "miss" ∅))],
          []⟩ =
      some (.ok (insert "miss" ∅),
        ⟨[("al", ⟨["miss"], [], "", []⟩)], [("al", .done (insert "miss" ∅))],
          []⟩)) :=
  ⟨by decide, by decide,
    @getDepends_error_caches ⟨["/r"], [("al", ⟨["miss"], [], "", []⟩)]⟩ 3 0 "al"
      st0
      ⟨[("al", ⟨["miss"], [], "", []⟩)], [("al", .done (insert "miss" ∅))], []⟩
      ⟨["/r"], insert "miss" ∅, insert "miss" ∅⟩ ⟨["miss"], [], "", []⟩
      (by decide) (by decide)⟩

/-- Witness for `getDependsOn_not_self` (claim C10) at a concrete input
with a dependency cycle through `W`. -/
theorem getDependsOn_not_self_witness :
    getDependsOn mmWZY 6 "Y" true st0 =
      some ((getDependsOn mmWZY 6 "Y" true st0).getD ([], st0)) ∧
    "Y" ∉ ((getDependsOn mmWZY 6 "Y" true st0).getD ([], st0)).1 :=
  ⟨by decide,
    @getDependsOn_not_self mmWZY 6 "Y" true st0
      ((getDependsOn mmWZY 6 "Y" true st0).getD ([], st0)) (by decide)⟩

/-! ## Claim C8 -/

/-- Claim C8 (the code evaluated at the failing input): with manifest
cache holding `pkgA` (license `BSD`) and its dependency `pkgB` (license
`MIT`), `get_licenses("pkgA", implicit=true, sortbylicense=true)` keys
by each manifest's `license` attribute but appends the *requested*
top-level package name to every group — `MIT` maps to `["pkgA"]`, not to
the owning package `["pkgB"]` — contradicting the claimed
license→owning-packages grouping.  The second conjunct shows the
`sortbylicense=false` branch producing the intended owning-package
association for the same input, confirming the defect is specific to the
`sortbylicense=true` branch (`license_dict[manifest.license].append(pkg_name)`). -/
theorem getLicenses_sortbylicense_bug :
    (getLicenses ⟨[], [("pkgA", ⟨["pkgB"], [], "BSD", ["BSD"]⟩),
        ("pkgB", ⟨[], [], "MIT", ["MIT"]⟩)]⟩ 9 "pkgA" true true false []
        st0).map (fun p => p.1) =
      some (.ok [("BSD", ["pkgA"]), ("MIT", ["pkgA"])]) ∧
    (getLicenses ⟨[], [("pkgA", ⟨["pkgB"], [], "BSD", ["BSD"]⟩),
        ("pkgB", ⟨[], [], "MIT", ["MIT"]⟩)]⟩ 9 "pkgA" true false false []
        st0).map (fun p => p.1) =
      some (.ok [("BSD", ["pkgA"]), ("MIT", ["pkgB"])]) :=
  ⟨by decide, by decide⟩

/-! ## Claim C9 -/

/-- Claim C9 (counterexample): resolving a stack version with no stack
manifest and a `CMakeLists.txt` that does not contain the
`rosbuild_make_distribution` macro does *not* fail with an error: the
line loop of `_get_cmake_version` falls through returning `None`, and
`get_stack_version_by_dir` returns `None`. -/
theorem getStackVersion_no_macro_counterexample :
    getCmakeVersion "project(foo)" = .ok none ∧
    getStackVersionByDir ⟨none, some "project(foo)"⟩ = none :=
  ⟨by decide, by decide⟩

theorem getCmakeVersionLines_no_macro : ∀ L : List String,
    (∀ l ∈ L, pyStartsWith (pyStrip l) "rosbuild_make_distribution" = false) →
    getCmakeVersionLines L = .ok none := by
  intro L
  induction L with
  | nil => intro _; rfl
  | cons l rest ih =>
    intro hl
    unfold getCmakeVersionLines
    simp only [hl l (List.mem_cons_self l rest), Bool.false_eq_true, if_false,
      ite_false]
    exact ih (fun q hq => hl q (List.mem_cons_of_mem l hq))

/-- Claim C9 (amended): with no structured stack manifest and a
`CMakeLists.txt` present, (a) when no stripped line starts with the
recognized macro `rosbuild_make_distribution`, no error occurs —
`_get_cmake_version` returns `None` and so does
`get_stack_version_by_dir`; (b) when the macro is present but its
version argument is missing or empty, `_get_cmake_version` raises
`ValueError`, which `get_stack_version_by_dir` catches and converts to
`None`.  So the version lookup never surfaces an error in these cases;
only `_get_cmake_version` itself errors, and only for a present macro
with an empty argument. -/
theorem getStackVersion_cmake_amended :
    (∀ text : String,
      (∀ l ∈ pySplit (fun c => c = '\n') text,
        pyStartsWith (pyStrip l) "rosbuild_make_distribution" = false) →
      getCmakeVersion text = .ok none ∧
      getStackVersionByDir ⟨none, some text⟩ = none) ∧
    getCmakeVersion "rosbuild_make_distribution()" = .error () ∧
    getStackVersionByDir ⟨none, some "rosbuild_make_distribution()"⟩ = none := by
  refine ⟨?_, by decide, by decide⟩
  intro text hno
  have hgc : getCmakeVersion text = .ok none :=
    getCmakeVersionLines_no_macro _ hno
  exact ⟨hgc, by simp [getStackVersionByDir, hgc]⟩

/-- Witness for `getStackVersion_cmake_amended` at a concrete
macro-free `CMakeLists.txt`. -/
theorem getStackVersion_cmake_amended_witness :
    (∀ l ∈ pySplit (fun c => c = '\n') "project(foo)\ninstall(bar)",
      pyStartsWith (pyStrip l) "rosbuild_make_distribution" = false) ∧
    (getCmakeVersion "project(foo)\ninstall(bar)" = .ok none ∧
      getStackVersionByDir ⟨none, some "project(foo)\ninstall(bar)"⟩ = none) :=
  ⟨by decide,
    getStackVersion_cmake_amended.1 "project(foo)\ninstall(bar)" (by decide)⟩

/-! ### The path scanner: ignore markers (C7) and search-path
precedence (C1) -/

/-- Replaying concatenated attempt lists composes. -/
theorem applyAtt_append (xs ys : List (String × String)) (res : List String)
    (c : List (String × String)) :
    applyAtt (xs ++ ys) res c =
      applyAtt ys (applyAtt xs res c).1 (applyAtt xs res c).2 := by
  induction xs generalizing res c with
  | nil => simp [applyAtt]
  | cons p rest ih =>
    obtain ⟨n, d⟩ := p
    by_cases h : n ∈ res
    · simp [applyAtt, h, ih]
    · simp [applyAtt, h, ih]

/-- `list_by_path` is the replay of its attempt list: by strong
induction on the tree size, a scan from any `(resources, cache)`
accumulator equals `applyAtt` of `attemptsT`/`attemptsF`. -/
theorem scan_replay_aux : ∀ N : Nat,
    (∀ t : FSTree, sizeOf t ≤ N → ∀ (m cur : String) (res : List String)
        (c : List (String × String)),
      listByPath m t cur res c = applyAtt (attemptsT m t cur) res c) ∧
    (∀ ts : List FSTree, sizeOf ts ≤ N → ∀ (m parent : String)
        (res : List String) (c : List (String × String)),
      listByPathForest m ts parent res c =
        applyAtt (attemptsF m ts parent) res c) := by
  intro N
  induction N with
  | zero =>
    constructor
    · intro t ht
      exfalso
      obtain ⟨dn, files, pkg, subs⟩ := t
      simp only [FSTree.mk.sizeOf_spec] at ht
      omega
    · intro ts ht
      exfalso
      cases ts with
      | nil => simp only [List.nil.sizeOf_spec] at ht; omega
      | cons t rest => simp only [List.cons.sizeOf_spec] at ht; omega
  | succ N ih =>
    constructor
    · intro t ht m cur res c
      obtain ⟨dn, files, pkg, subs⟩ := t
      rw [listByPath, attemptsT]
      by_cases h1 : "CATKIN_IGNORE" ∈ files
      · simp [h1, applyAtt]
      · cases hpr : pkgRecordName m pkg with
        | some rn =>
          by_cases hm : rn ∈ res <;>
            simp [h1, hpr, recordInto, applyAtt, hm]
        | none =>
          by_cases h2 : manifestPresent m files pkg
          · by_cases hm : dn ∈ res <;>
              simp [h1, hpr, h2, recordInto, applyAtt, hm]
          · by_cases h3 : MANIFEST_FILE ∈ files ∨ pkg.isSome = true
            · simp [h1, hpr, h2, h3, applyAtt]
            · by_cases h4 : "rospack_nosubdirs" ∈ files
              · simp [h1, hpr, h2, h3, h4, applyAtt]
              · simp only [h1, hpr, h2, h3, h4, if_neg, ite_false,
                  if_false]
                refine (ih.2) (pyRemoveHidden subs) ?_ m cur res c
                have hs : sizeOf (pyRemoveHidden subs) ≤ sizeOf subs :=
                  sublist_sizeOf_le (pyRemoveHiddenGo_sublist 0 subs)
                simp only [FSTree.mk.sizeOf_spec] at ht
                omega
    · intro ts ht m parent res c
      cases ts with
      | nil => simp [listByPathForest, attemptsF, applyAtt]
      | cons t rest =>
        rw [listByPathForest, attemptsF, applyAtt_append]
        simp only [List.cons.sizeOf_spec] at ht
        rw [ih.1 t (by omega) m (parent ++ "/" ++ t.dname) res c]
        exact ih.2 rest (by omega) m parent _ _

/-- The replay characterization of a single-tree scan. -/
theorem listByPath_eq_applyAtt (m : String) (t : FSTree) (cur : String)
    (res : List String) (c : List (String × String)) :
    listByPath m t cur res c = applyAtt (attemptsT m t cur) res c :=
  (scan_replay_aux (sizeOf t)).1 t (Nat.le_refl _) m cur res c

/-- A name is in the replayed `resources` list iff it was there
already or some attempt carries it. -/
theorem applyAtt_fst_mem (atts : List (String × String)) (res : List String)
    (c : List (String × String)) (n : String) :
    n ∈ (applyAtt atts res c).1 ↔ n ∈ res ∨ n ∈ atts.map Prod.fst := by
  induction atts generalizing res c with
  | nil => simp [applyAtt]
  | cons p rest ih =>
    obtain ⟨k, d⟩ := p
    by_cases hk : k ∈ res
    · simp only [applyAtt, if_pos hk, ih, List.map_cons, List.mem_cons]
      constructor
      · rintro (h | h)
        · exact Or.inl h
        · exact Or.inr (Or.inr h)
      · rintro (h | h | h)
        · exact Or.inl h
        · exact Or.inl (h ▸ hk)
        · exact Or.inr h
    · simp only [applyAtt, if_neg hk, ih, List.map_cons, List.mem_cons,
        List.mem_append, List.mem_singleton]
      tauto

/-- Attempts for names already in `resources` never touch the cache
entry of such a name. -/
theorem applyAtt_snd_mem_res (atts : List (String × String)) :
    ∀ (res : List String) (c : List (String × String)) (n : String),
    n ∈ res → aget (applyAtt atts res c).2 n = aget c n := by
  induction atts with
  | nil => intro res c n _; simp [applyAtt]
  | cons p rest ih =>
    intro res c n h
    obtain ⟨k, d⟩ := p
    by_cases hk : k ∈ res
    · simp only [applyAtt, if_pos hk]
      exact ih res c n h
    · simp only [applyAtt, if_neg hk]
      have hkn : n ≠ k := fun he => hk (he ▸ h)
      rw [ih _ _ n (List.mem_append_left _ h), aget_aset_ne c k n d hkn]

/-- For a name not yet in `resources`, the replayed cache binds it to
the directory of the *first* attempt carrying it (scans record only
names that are new, so the first hit wins within one scan), and leaves
it untouched when no attempt carries it. -/
theorem applyAtt_snd_fresh (atts : List (String × String)) :
    ∀ (res : List String) (c : List (String × String)) (n : String),
    n ∉ res →
    aget (applyAtt atts res c).2 n =
      (match atts.find? (fun p => p.1 == n) with
       | some q => some q.2
       | none => aget c n) := by
  induction atts with
  | nil => intro res c n _; simp [applyAtt, List.find?]
  | cons p rest ih =>
    intro res c n h
    obtain ⟨k, d⟩ := p
    by_cases hkn : k = n
    · subst hkn
      simp only [applyAtt, if_neg h]
      rw [applyAtt_snd_mem_res rest (res ++ [k]) _ k (by simp)]
      simp [List.find?, aget_aset_self]
    · by_cases hk : k ∈ res
      · simp only [applyAtt, if_pos hk]
        rw [ih res c n h]
        have hb : (k == n) = false := beq_eq_false_iff_ne.mpr hkn
        simp [List.find?, hb]
      · simp only [applyAtt, if_neg hk]
        have hn : n ∉ res ++ [k] := by
          simp only [List.mem_append, List.mem_singleton]
          rintro (h1 | h2)
          · exact h h1
          · exact hkn h2.symm
        rw [ih _ _ n hn]
        have hb : (k == n) = false := beq_eq_false_iff_ne.mpr hkn
        cases hf : rest.find? (fun p => p.1 == n) with
        | some q => simp [List.find?, hb, hf]
        | none =>
          simp [List.find?, hb, hf,
            aget_aset_ne c k n d (fun he => hkn he.symm)]

/-- One step of the reverse-order crawl: the head search path is
scanned last, over the cache built from the tail. -/
theorem updateLocationCache_cons (m : String) (r : SearchRoot)
    (rest : List SearchRoot) :
    updateLocationCache m (r :: rest) =
      (listByPath m r.tree r.path [] (updateLocationCache m rest)).2 := by
  unfold updateLocationCache
  rw [List.reverse_cons, List.foldl_append]
  rfl

/-- If search path `i` discovers `name` and no earlier search path
does, the built location cache answers for `name` exactly what the
standalone scan of path `i` records (earlier paths scanned later
overwrite, and paths before `i` never write `name`). -/
theorem updateLocationCache_lookup (m name : String) :
    ∀ (roots : List SearchRoot) (i : Nat) (hi : i < roots.length),
      name ∈ (scanPath m (roots.get ⟨i, hi⟩)).1 →
      (∀ j (hj : j < i),
        name ∉ (scanPath m (roots.get ⟨j, Nat.lt_trans hj hi⟩)).1) →
      aget (updateLocationCache m roots) name =
        aget (scanPath m (roots.get ⟨i, hi⟩)).2 name := by
  intro roots
  induction roots with
  | nil => intro i hi; exact absurd hi (by simp)
  | cons r rest ih =>
    intro i hi hdisc hfirst
    rw [updateLocationCache_cons]
    cases i with
    | zero =>
      have hdisc0 : name ∈ (scanPath m r).1 := hdisc
      show aget (listByPath m r.tree r.path [] (updateLocationCache m rest)).2
          name = aget (scanPath m r).2 name
      have hdisc' : name ∈ (attemptsT m r.tree r.path).map Prod.fst := by
        rw [scanPath, listByPath_eq_applyAtt, applyAtt_fst_mem] at hdisc0
        simpa using hdisc0
      rw [listByPath_eq_applyAtt,
        applyAtt_snd_fresh _ [] _ name (List.not_mem_nil name),
        scanPath, listByPath_eq_applyAtt,
        applyAtt_snd_fresh _ [] _ name (List.not_mem_nil name)]
      cases hf : (attemptsT m r.tree r.path).find? (fun p => p.1 == name) with
      | some q => simp [hf]
      | none =>
        exfalso
        obtain ⟨p, hp, hpn⟩ := List.mem_map.mp hdisc'
        have := List.find?_eq_none.mp hf p hp
        simp only [beq_iff_eq] at this
        exact this hpn
    | succ i =>
      have hnd : name ∉ (scanPath m r).1 := hfirst 0 (Nat.succ_pos i)
      have hnm : name ∉ (attemptsT m r.tree r.path).map Prod.fst := by
        intro hmem
        exact hnd (by
          rw [scanPath, listByPath_eq_applyAtt, applyAtt_fst_mem]
          exact Or.inr hmem)
      rw [listByPath_eq_applyAtt,
        applyAtt_snd_fresh _ [] _ name (List.not_mem_nil name)]
      cases hf : (attemptsT m r.tree r.path).find? (fun p => p.1 == name) with
      | some q =>
        exfalso
        have hq := List.find?_some hf
        have hqm := List.mem_of_find?_eq_some hf
        simp only [beq_iff_eq] at hq
        exact hnm (List.mem_map.mpr ⟨q, hqm, hq⟩)
      | none =>
        simp only [hf]
        have hdisc2 : name ∈ (scanPath m (rest.get
            ⟨i, Nat.lt_of_succ_lt_succ hi⟩)).1 := hdisc
        have hfirst2 : ∀ j (hj : j < i), name ∉ (scanPath m (rest.get
            ⟨j, Nat.lt_trans hj (Nat.lt_of_succ_lt_succ hi)⟩)).1 :=
          fun j hj => hfirst (j + 1) (Nat.succ_lt_succ hj)
        exact ih i (Nat.lt_of_succ_lt_succ hi) hdisc2 hfirst2

/-- C7 counterexample: a directory holding both `manifest.xml` and
`rospack_nosubdirs` *is* recorded as a resource — the manifest branch of
`list_by_path` fires before the `rospack_nosubdirs` check — contradicting
"records no resource for that directory". -/
theorem listByPath_nosubdirs_records_counterexample :
    listByPath MANIFEST_FILE
      (FSTree.mk "p" ["manifest.xml", "rospack_nosubdirs"] none [])
      "/r/p" [] [] = (["p"], [("p", "/r/p")]) := by
  simp [listByPath, pkgRecordName, manifestPresent, recordInto, MANIFEST_FILE,
    PACKAGE_FILE, STACK_FILE, aset]

/-- C7 (amended): `CATKIN_IGNORE` behaves as claimed (no record, no
descent, tree left untouched); `rospack_nosubdirs` never lets the scan
descend into subdirectories (the scan equals the scan of the same
directory with its subtree removed), and records nothing *provided* no
matching manifest is present in the very same directory. -/
theorem listByPath_ignore_markers :
    (∀ (m : String) (t : FSTree) (cur : String) (res : List String)
        (cache : List (String × String)), "CATKIN_IGNORE" ∈ t.files →
      listByPath m t cur res cache = (res, cache)) ∧
    (∀ (m : String) (t : FSTree) (cur : String) (res : List String)
        (cache : List (String × String)), "rospack_nosubdirs" ∈ t.files →
      listByPath m t cur res cache =
        listByPath m (FSTree.mk t.dname t.files t.pkg []) cur res cache ∧
      (pkgRecordName m t.pkg = none → ¬ manifestPresent m t.files t.pkg →
        listByPath m t cur res cache = (res, cache))) := by
  constructor
  · intro m t cur res cache h
    obtain ⟨dn, files, pkg, subs⟩ := t
    simp only [FSTree.files] at h
    rw [listByPath]
    simp [h]
  · intro m t cur res cache h
    obtain ⟨dn, files, pkg, subs⟩ := t
    simp only [FSTree.files, FSTree.dname, FSTree.pkg] at h ⊢
    constructor
    · simp only [listByPath]
      by_cases h1 : "CATKIN_IGNORE" ∈ files
      · simp [h1]
      · cases hpr : pkgRecordName m pkg with
        | some rn => simp [h1, hpr]
        | none =>
          by_cases h2 : manifestPresent m files pkg
          · simp [h1, hpr, h2]
          · by_cases h3 : MANIFEST_FILE ∈ files ∨ pkg.isSome = true
            · simp [h1, hpr, h2, h3]
            · simp [h1, hpr, h2, h3, h]
    · intro hpr h2
      simp only [listByPath]
      by_cases h1 : "CATKIN_IGNORE" ∈ files
      · simp [h1]
      · by_cases h3 : MANIFEST_FILE ∈ files ∨ pkg.isSome = true <;>
          simp [h1, hpr, h2, h3, h]

/-- C7 witness: a `CATKIN_IGNORE` directory records nothing and never
descends (its `manifest.xml` child is invisible), and likewise a
`rospack_nosubdirs` directory without its own manifest. -/
theorem listByPath_ignore_markers_witness :
    (("CATKIN_IGNORE" : String) ∈
      (FSTree.mk "q" ["CATKIN_IGNORE"] none
        [FSTree.mk "inner" ["manifest.xml"] none []]).files ∧
     listByPath MANIFEST_FILE
       (FSTree.mk "q" ["CATKIN_IGNORE"] none
         [FSTree.mk "inner" ["manifest.xml"] none []]) "/r/q" [] [] =
       ([], [])) ∧
    (("rospack_nosubdirs" : String) ∈
      (FSTree.mk "p" ["rospack_nosubdirs"] none
        [FSTree.mk "inner" ["manifest.xml"] none []]).files ∧
     pkgRecordName MANIFEST_FILE
       (FSTree.mk "p" ["rospack_nosubdirs"] none
         [FSTree.mk "inner" ["manifest.xml"] none []]).pkg = none ∧
     ¬ manifestPresent MANIFEST_FILE
       (FSTree.mk "p" ["rospack_nosubdirs"] none
         [FSTree.mk "inner" ["manifest.xml"] none []]).files
       (FSTree.mk "p" ["rospack_nosubdirs"] none
         [FSTree.mk "inner" ["manifest.xml"] none []]).pkg ∧
     listByPath MANIFEST_FILE
       (FSTree.mk "p" ["rospack_nosubdirs"] none
         [FSTree.mk "inner" ["manifest.xml"] none []]) "/r/p" [] [] =
       ([], [])) :=
  ⟨⟨by decide,
    listByPath_ignore_markers.1 MANIFEST_FILE _ "/r/q" [] [] (by decide)⟩,
   by decide, by decide, by decide,
   (listByPath_ignore_markers.2 MANIFEST_FILE _ "/r/p" [] [] (by decide)).2
     (by decide) (by decide)⟩

/-- C1: for every search-path list and every name discovered under
search path `i` but under no earlier one (in the original, non-reversed
order), after the lazy location-cache build `get_path(name)` returns
precisely the directory that the scan of path `i` records for `name`.
In particular a name discoverable under two different search paths
resolves under the earliest one. -/
theorem getPath_earliest_wins (m : String) (roots : List SearchRoot)
    (name : String) (i : Nat) (hi : i < roots.length)
    (hdisc : name ∈ (scanPath m (roots.get ⟨i, hi⟩)).1)
    (hfirst : ∀ j (hj : j < i),
      name ∉ (scanPath m (roots.get ⟨j, Nat.lt_trans hj hi⟩)).1) :
    ∃ d, aget (scanPath m (roots.get ⟨i, hi⟩)).2 name = some d ∧
      getPath m roots name = .ok d := by
  have hl := updateLocationCache_lookup m name roots i hi hdisc hfirst
  have hdisc' : name ∈
      (attemptsT m (roots.get ⟨i, hi⟩).tree (roots.get ⟨i, hi⟩).path).map
        Prod.fst := by
    rw [scanPath, listByPath_eq_applyAtt, applyAtt_fst_mem] at hdisc
    simpa using hdisc
  have hsc : ∃ d, aget (scanPath m (roots.get ⟨i, hi⟩)).2 name = some d := by
    rw [scanPath, listByPath_eq_applyAtt,
      applyAtt_snd_fresh _ [] _ name (List.not_mem_nil name)]
    cases hf : (attemptsT m (roots.get ⟨i, hi⟩).tree
        (roots.get ⟨i, hi⟩).path).find? (fun p => p.1 == name) with
    | some q => exact ⟨q.2, by simp [hf]⟩
    | none =>
      exfalso
      obtain ⟨p, hp, hpn⟩ := List.mem_map.mp hdisc'
      have := List.find?_eq_none.mp hf p hp
      simp only [beq_iff_eq] at this
      exact this hpn
  obtain ⟨d, hd⟩ := hsc
  refine ⟨d, hd, ?_⟩
  rw [getPath, hl, hd]

/-- C1 witness: two search roots both holding a `pkgZ`; the earlier
one wins. -/
theorem getPath_earliest_wins_witness :
    (0 < ([⟨"/a/pkgZ", FSTree.mk "pkgZ" ["manifest.xml"] none []⟩,
           ⟨"/b/pkgZ", FSTree.mk "pkgZ" ["manifest.xml"] none []⟩] :
        List SearchRoot).length) ∧
    "pkgZ" ∈ (scanPath MANIFEST_FILE
      ⟨"/a/pkgZ", FSTree.mk "pkgZ" ["manifest.xml"] none []⟩).1 ∧
    (∃ d, aget (scanPath MANIFEST_FILE
        ⟨"/a/pkgZ", FSTree.mk "pkgZ" ["manifest.xml"] none []⟩).2 "pkgZ" =
          some d ∧
      getPath MANIFEST_FILE
        [⟨"/a/pkgZ", FSTree.mk "pkgZ" ["manifest.xml"] none []⟩,
         ⟨"/b/pkgZ", FSTree.mk "pkgZ" ["manifest.xml"] none []⟩] "pkgZ" =
        .ok d) := by
  have hd : "pkgZ" ∈ (scanPath MANIFEST_FILE
      ⟨"/a/pkgZ", FSTree.mk "pkgZ" ["manifest.xml"] none []⟩).1 := by
    simp [scanPath, listByPath, pkgRecordName, manifestPresent, recordInto,
      MANIFEST_FILE, PACKAGE_FILE, STACK_FILE, aset]
  exact ⟨by simp, hd,
    getPath_earliest_wins MANIFEST_FILE
      [⟨"/a/pkgZ", FSTree.mk "pkgZ" ["manifest.xml"] none []⟩,
       ⟨"/b/pkgZ", FSTree.mk "pkgZ" ["manifest.xml"] none []⟩]
      "pkgZ" 0 (by simp) hd (fun j hj => absurd hj (Nat.not_lt_zero j))⟩

end Rospkg
